import Mathlib

/-!
# Virtual memory simulator (`Project3/.../part1.c`)

A shallow embedding of the address-translation program: the logical-address
decoder, the 16-entry TLB with second-chance replacement (`search_tlb`,
`add_to_tlb`), the page table with demand paging, and the statistics counters
kept by the read loop of `main`.

Conventions of the embedding.

* A C `int` is an `Int`; an `unsigned int` is a `Nat` kept below `2^32`, with the
  C conversions between the two written out (`toInt32`, `toUInt32`).
* A C array is a function from indices to cells.  The arrays indexed by an `int`
  expression (`pagetable`, `main_memory`, `backing`) take an `Int` index; the TLB
  array, indexed by the loop counter of `search_tlb` and by the clock pointer
  `tlbindex` (both non-negative), takes a `Nat` index.
* The `while (1)` loop of `add_to_tlb` is a recursion on an explicit iteration
  budget and returns `none` when the budget is used up.
* The counters `total_addresses`, `tlb_hits`, `page_faults` are `int`s whose
  overflow is undefined in C; they are unbounded integers here, and the theorem
  on the statistics shows they stay below `2^31` for traces shorter than `2^31`.
* The trace file is the list of its bytes, read by `main_read_loop` through the C
  library functions `fgets` and `atoi`; `main_loop` is the same loop on the list of
  addresses `atoi` returned.
-/

namespace VirtMem

/-! ## Constants -/

def TLB_SIZE : Nat := 16
def PAGES : Int := 1024
def PAGE_MASK : Int := 0xFFC00
def PAGE_SIZE : Int := 1024
def OFFSET_BITS : Nat := 10
def OFFSET_MASK : Int := 0x003FF
def MEMORY_SIZE : Int := PAGES * PAGE_SIZE

/-! ## Integer conversions -/

/-- Conversion of an `unsigned int` value to `int` (32-bit two's complement). -/
def toInt32 (u : Nat) : Int :=
  if u % 4294967296 < 2147483648 then ((u % 4294967296 : Nat) : Int)
  else ((u % 4294967296 : Nat) : Int) - 4294967296

/-- Conversion of an `int` value to `unsigned int` (reduction modulo `2^32`). -/
def toUInt32 (i : Int) : Nat := (i % 4294967296).toNat

/-! ## Data model -/

/-- The C `struct tlbentry`: three `unsigned int` fields. -/
structure tlbentry where
  logical : Nat
  physical : Nat
  reference : Nat
deriving DecidableEq

/-- The program state: the globals `tlb`, `tlbindex`, `pagetable`, `main_memory` and
the locals of `main` that live across iterations of the read loop. -/
structure State where
  tlb : Nat → tlbentry
  tlbindex : Nat
  pagetable : Int → Int
  main_memory : Int → Int
  total_addresses : Int
  tlb_hits : Int
  page_faults : Int
  free_page : Nat

/-- One record of per-address output (the two `printf` calls of the loop body). -/
structure Output where
  logical_page : Int
  logical_address : Int
  physical_address : Int
  value : Int
deriving DecidableEq

/-- The state when the read loop is entered: the page table filled with `-1`, every
TLB entry set to `(-1, -1, 0)` (the `-1`s converted to `unsigned int`), `tlbindex`,
the counters and `free_page` zero, `main_memory` zero-initialised.  Cells outside the
array bounds are not part of the program; the model leaves them zero. -/
def init : State where
  tlb := fun i => if i < TLB_SIZE then ⟨toUInt32 (-1), toUInt32 (-1), 0⟩ else ⟨0, 0, 0⟩
  tlbindex := 0
  pagetable := fun i => if 0 ≤ i ∧ i < PAGES then -1 else 0
  main_memory := fun _ => 0
  total_addresses := 0
  tlb_hits := 0
  page_faults := 0
  free_page := 0

/-! ## Address decoding (`main`, lines 114-115) -/

/-- The statement `int offset = logical_address & OFFSET_MASK;`. -/
def offset (logical_address : Int) : Int :=
  Int.land logical_address OFFSET_MASK

/-- The statement `int logical_page = (logical_address & PAGE_MASK) >> OFFSET_BITS;`. -/
def logical_page (logical_address : Int) : Int :=
  (Int.land logical_address PAGE_MASK) >>> OFFSET_BITS

/-! ## The TLB -/

/-- The `for` loop of `search_tlb`: `n` iterations remain, the loop counter is `i`. -/
def search_tlb_loop (page : Nat) (s : State) : Nat → Nat → Int × State
  | 0, _ => (-1, s)
  | n + 1, i =>
    if (s.tlb i).logical = page then
      (toInt32 (s.tlb i).physical,
        { s with tlb := Function.update s.tlb i { s.tlb i with reference := 1 } })
    else search_tlb_loop page s n (i + 1)

/-- The function `search_tlb`: the returned `int` and the state it leaves. -/
def search_tlb (page : Nat) (s : State) : Int × State :=
  search_tlb_loop page s TLB_SIZE 0

/-- The function `add_to_tlb`; the first argument bounds the number of iterations of
its `while (1)` loop. -/
def add_to_tlb : Nat → Nat → Nat → State → Option State
  | 0, _, _, _ => none
  | fuel + 1, logical, physical, s =>
    if (s.tlb s.tlbindex).reference = 0 then
      some { s with
        tlb := Function.update s.tlb s.tlbindex ⟨logical, physical, 1⟩
        tlbindex := (s.tlbindex + 1) % TLB_SIZE }
    else
      add_to_tlb fuel logical physical { s with
        tlb := Function.update s.tlb s.tlbindex { s.tlb s.tlbindex with reference := 0 }
        tlbindex := (s.tlbindex + 1) % TLB_SIZE }

/-! ## The read loop of `main` -/

/-- The call `memcpy(dest + d, src + o, n)`. -/
def memcpy (dest : Int → Int) (d : Int) (src : Int → Int) (o : Int) (n : Int) : Int → Int :=
  fun i => if d ≤ i ∧ i < d + n then src (o + (i - d)) else dest i

/-- Lines 144-147: the physical address, the byte read and the record printed. -/
def report (s : State) (logical_address physical_page : Int) : State × Output :=
  (s, { logical_page := logical_page logical_address
        logical_address := logical_address
        physical_address := Int.lor (physical_page <<< (OFFSET_BITS : Int)) (offset logical_address)
        value := s.main_memory (physical_page * PAGE_SIZE + offset logical_address) })

/-- The page-fault branch (lines 129-137), up to the page-table update. -/
def page_fault (backing : Int → Int) (s : State) (page : Int) : Int × State :=
  let physical_page := toInt32 s.free_page
  (physical_page,
    { s with
      page_faults := s.page_faults + 1
      free_page := (s.free_page + 1) % 4294967296
      main_memory :=
        memcpy s.main_memory (physical_page * PAGE_SIZE) backing (page * PAGE_SIZE) PAGE_SIZE
      pagetable := Function.update s.pagetable page physical_page })

/-- One iteration of the read loop of `main` on the address `atoi` returned. -/
def main_step (backing : Int → Int) (fuel : Nat) (s : State) (logical_address : Int) :
    Option (State × Output) :=
  let s0 := { s with total_addresses := s.total_addresses + 1 }
  let r := search_tlb (toUInt32 (logical_page logical_address)) s0
  if r.1 ≠ -1 then
    some (report { r.2 with tlb_hits := r.2.tlb_hits + 1 } logical_address r.1)
  else
    let q :=
      if r.2.pagetable (logical_page logical_address) = -1 then
        page_fault backing r.2 (logical_page logical_address)
      else (r.2.pagetable (logical_page logical_address), r.2)
    (add_to_tlb fuel (toUInt32 (logical_page logical_address)) (toUInt32 q.1) q.2).map
      fun s1 => report s1 logical_address q.1

/-- The read loop over a whole trace, collecting the records in trace order. -/
def main_loop (backing : Int → Int) (fuel : Nat) : State → List Int → Option (State × List Output)
  | s, [] => some (s, [])
  | s, a :: rest =>
    match main_step backing fuel s a with
    | none => none
    | some (s1, o) =>
      match main_loop backing fuel s1 rest with
      | none => none
      | some (s2, os) => some (s2, o :: os)

/-- The states the program passes through: the initial state and every state a
completed loop iteration leads to. -/
inductive Reachable (backing : Int → Int) : State → Prop
  | init : Reachable backing init
  | step {s s1 : State} {o : Output} (fuel : Nat) (a : Int) :
      Reachable backing s → main_step backing fuel s a = some (s1, o) → Reachable backing s1

/-! ## Reading the trace file (`main`, lines 98-110)

The trace file is the list of its bytes.  `fgets` and `atoi` are C library functions;
they are given here as the C standard describes them, on the inputs the program hands
them. -/

/-- Max number of characters per line of input file to read. -/
def BUFFER_SIZE : Nat := 10

/-- The characters `fgets` stores when it may still read `n` of them: it stops after a
new-line character, which is retained, or at the end of the file. -/
def fgets_chars : Nat → List Nat → List Nat × List Nat
  | 0, input => ([], input)
  | _ + 1, [] => ([], [])
  | n + 1, c :: rest =>
    if c = 10 then ([c], rest)
    else ((c :: (fgets_chars n rest).1), (fgets_chars n rest).2)

/-- The C library call `fgets(buffer, size, fp)`: at most `size - 1` characters are
read.  The result is the string stored in the buffer and the rest of the file, or
`none` (the null pointer) when the end of the file is met before any character. -/
def fgets (size : Nat) (input : List Nat) : Option (List Nat × List Nat) :=
  match input with
  | [] => none
  | _ :: _ => some (fgets_chars (size - 1) input)

/-- The C library predicate `isspace` in the C locale. -/
def isspace (c : Nat) : Bool := c == 32 || (9 ≤ c && c ≤ 13)

/-- The C library predicate `isdigit`. -/
def isdigit (c : Nat) : Bool := 48 ≤ c && c ≤ 57

/-- The digits at the head of a string, read in base ten onto the value `acc`. -/
def atoi_digits : Int → List Nat → Int
  | acc, [] => acc
  | acc, c :: rest => if isdigit c then atoi_digits (acc * 10 + ((c : Int) - 48)) rest else acc

/-- The C library call `atoi(buffer)`: white space is skipped, then an optional sign
and the decimal digits that follow are converted; a string with no digits there gives 0.
(The values met here have at most nine digits and fit an `int`.) -/
def atoi (buffer : List Nat) : Int :=
  match buffer.dropWhile isspace with
  | 45 :: rest => - atoi_digits 0 rest
  | 43 :: rest => atoi_digits 0 rest
  | rest => atoi_digits 0 rest

/-- The read loop of `main` on the trace file: `while (fgets(...) != NULL)` with the
body `main_step` on `atoi(buffer)`.  The argument `n` bounds the number of iterations of
the `while` loop, `fuel` those of each scan of `add_to_tlb`. -/
def main_read_loop (backing : Int → Int) (fuel : Nat) :
    Nat → State → List Nat → Option (State × List Output)
  | 0, _, _ => none
  | n + 1, s, input =>
    match fgets BUFFER_SIZE input with
    | none => some (s, [])
    | some (buffer, rest) =>
      match main_step backing fuel s (atoi buffer) with
      | none => none
      | some (s1, o) =>
        match main_read_loop backing fuel n s1 rest with
        | none => none
        | some (s2, os) => some (s2, o :: os)

/-- The bytes of a trace file with the given lines, each followed by a new-line
character. -/
def file_of_lines : List (List Nat) → List Nat
  | [] => []
  | l :: rest => l ++ 10 :: file_of_lines rest

/-- The numeric value of a string of decimal digits. -/
def line_value (l : List Nat) : Int :=
  l.foldl (fun acc c => acc * 10 + ((c : Int) - 48)) 0

/-- The bytes of the one-line trace file `123456789` followed by a new-line character. -/
def nine_digit_file : List Nat := [49, 50, 51, 52, 53, 54, 55, 56, 57, 10]

/-- The bytes of the one-line trace file `12345678` followed by a new-line character. -/
def eight_digit_file : List Nat := [49, 50, 51, 52, 53, 54, 55, 56, 10]

/-! ## Predicates used to state the properties -/

/-- The state `s1` differs from `s` at most in the TLB array and the clock pointer:
the page table, the memory, the counters and `free_page` are those of `s`. -/
def same_but_tlb (s s1 : State) : Prop :=
  s1.pagetable = s.pagetable ∧ s1.main_memory = s.main_memory ∧
  s1.total_addresses = s.total_addresses ∧ s1.tlb_hits = s.tlb_hits ∧
  s1.page_faults = s.page_faults ∧ s1.free_page = s.free_page

/-- The invariant of the read loop of `main`: what holds of the state before every
iteration. -/
structure Inv (backing : Int → Int) (s : State) : Prop where
  /-- The clock pointer is a valid TLB index. -/
  idx : s.tlbindex < 16
  /-- A mapped page-table slot holds a frame already handed out. -/
  pt_range : ∀ p : Int, 0 ≤ p → p < 1024 →
    s.pagetable p = -1 ∨ (0 ≤ s.pagetable p ∧ s.pagetable p < (s.free_page : Int))
  /-- Every frame handed out is the frame of some page. -/
  pt_onto : ∀ f : Nat, f < s.free_page → ∃ p : Int, 0 ≤ p ∧ p < 1024 ∧ s.pagetable p = (f : Int)
  /-- No two pages share a frame. -/
  pt_inj : ∀ p q : Int, 0 ≤ p → p < 1024 → 0 ≤ q → q < 1024 →
    s.pagetable p ≠ -1 → s.pagetable p = s.pagetable q → p = q
  /-- The frame of a mapped page holds the bytes of that page of the backing store. -/
  mem : ∀ p : Int, 0 ≤ p → p < 1024 → s.pagetable p ≠ -1 → ∀ o : Int, 0 ≤ o → o < 1024 →
    s.main_memory (s.pagetable p * 1024 + o) = backing (p * 1024 + o)
  /-- A TLB entry in use holds a page number and that page's frame in the page table. -/
  tlb_pt : ∀ i, i < 16 → (s.tlb i).logical ≠ 4294967295 →
    (s.tlb i).logical < 1024 ∧ s.pagetable ((s.tlb i).logical : Int) = ((s.tlb i).physical : Int)
  /-- No page is held by two TLB slots. -/
  tlb_uniq : ∀ i j, i < 16 → j < 16 → (s.tlb i).logical ≠ 4294967295 →
    (s.tlb i).logical = (s.tlb j).logical → i = j
  /-- Nothing is ever written past the sixteen slots of the TLB array. -/
  tlb_out : ∀ i, 16 ≤ i → s.tlb i = ⟨0, 0, 0⟩
  /-- The counters. -/
  hits_nonneg : 0 ≤ s.tlb_hits
  faults_eq : s.page_faults = (s.free_page : Int)
  stats_le : s.tlb_hits + s.page_faults ≤ s.total_addresses

/-! ## Sample states -/

/-- A TLB whose slots 0, 1, 2 have the reference bit set and whose slots 3..15 have it
clear, with the clock pointer at slot 1. -/
def tlb_partly_referenced : State :=
  { init with
    tlb := fun i => if i < 3 then ⟨i, i + 100, 1⟩ else if i < 16 then ⟨i, i + 100, 0⟩ else ⟨0, 0, 0⟩
    tlbindex := 1 }

/-- A TLB in which all sixteen slots have the reference bit set, with the clock pointer
at slot 5. -/
def tlb_all_referenced : State :=
  { init with
    tlb := fun i => ⟨i, i + 100, 1⟩
    tlbindex := 5 }

/-- The initial TLB with slot 3 replaced by an entry for page 3 whose frame field has
all 32 bits set. -/
def tlb_frame_all_ones : State :=
  { init with tlb := fun i => if i = 3 then ⟨3, 4294967295, 0⟩ else init.tlb i }

/-- A backing store that is zero everywhere except for byte 0, which is 42. -/
def sample_backing : Int → Int := fun i => if i = 0 then 42 else 0

/-- The state after the read loop has processed the single address 0. -/
def after_address_zero : State :=
  match main_step sample_backing 17 init 0 with
  | some r => r.1
  | none => init

/-- The state after the addresses 0, 1024 and 5 have been processed. -/
def after_three_addresses : State :=
  match main_loop sample_backing 17 init [0, 1024, 5] with
  | some r => r.1
  | none => init

/-! ## The pages of a trace -/

/-- The logical pages referenced, in order of first reference: the pages `seen`
referenced before, followed by the new pages of the trace as they first occur. -/
def first_refs (seen : List Int) : List Int → List Int
  | [] => seen
  | a :: rest =>
    if logical_page a ∈ seen then first_refs seen rest
    else first_refs (seen ++ [logical_page a]) rest

/-- The distinct logical pages of a trace, in order of first reference. -/
def distinct_pages (trace : List Int) : List Int := first_refs [] trace

/-- The pages `seen` are exactly the mapped pages of the state, and the page at
position `i` of the list is mapped to frame `i`. -/
structure FramesInOrder (s : State) (seen : List Int) : Prop where
  nodup : seen.Nodup
  len : seen.length = s.free_page
  frame : ∀ (i : Nat) (p : Int), seen[i]? = some p →
    0 ≤ p ∧ p < 1024 ∧ s.pagetable p = (i : Int)
  mapped : ∀ p : Int, 0 ≤ p → p < 1024 → s.pagetable p ≠ -1 → p ∈ seen

/-- The TLB mirrors the list `seen` of mapped pages, of which there are at most 16:
slot `i` holds the page at position `i` of the list with frame `i`, the slots after
them are unused, and the clock pointer is at the first unused slot (back at slot 0 when
all sixteen are in use). -/
structure TlbMirrors (s : State) (seen : List Int) : Prop where
  len : seen.length ≤ 16
  slot : ∀ (i : Nat) (p : Int), seen[i]? = some p →
    (s.tlb i).logical = toUInt32 p ∧ (s.tlb i).physical = i
  unused : ∀ i, seen.length ≤ i → i < 16 → s.tlb i = ⟨4294967295, 4294967295, 0⟩
  pointer : s.tlbindex = seen.length % 16

/-! ## Bit-level facts about the masks -/

theorem nat_land_offset_mask (a : Nat) : a &&& 1023 = a % 1024 :=
  Nat.and_pow_two_sub_one_eq_mod a 10

theorem nat_land_page_mask (a : Nat) : (a &&& 0xFFC00) >>> 10 = (a / 1024) % 1024 := by
  apply Nat.eq_of_testBit_eq
  intro i
  have h1 : (1024 : Nat) = 2 ^ 10 := by norm_num
  have h2 : (0xFFC00 : Nat) = (2 ^ 10 - 1) <<< 10 := by decide
  rw [h1, Nat.testBit_mod_two_pow, ← Nat.shiftRight_eq_div_pow, Nat.testBit_shiftRight,
    Nat.testBit_shiftRight, Nat.testBit_and, h2, Nat.testBit_shiftLeft,
    Nat.testBit_two_pow_sub_one]
  by_cases hi : i < 10 <;> simp [hi, Nat.add_comm]

theorem nat_ldiff_offset_mask (m : Nat) : Nat.ldiff 1023 m = 1023 - m % 1024 := by
  apply Nat.eq_of_testBit_eq
  intro i
  have h : 1023 - m % 1024 = 2 ^ 10 - (m % 2 ^ 10 + 1) := by omega
  have hlt : m % 2 ^ 10 < 2 ^ 10 := Nat.mod_lt _ (by norm_num)
  have h3 : (1023 : Nat) = 2 ^ 10 - 1 := by norm_num
  rw [h, Nat.testBit_two_pow_sub_succ hlt, Nat.testBit_ldiff, Nat.testBit_mod_two_pow, h3,
    Nat.testBit_two_pow_sub_one]
  by_cases hi : i < 10 <;> simp [hi]

theorem nat_ldiff_page_mask (m : Nat) :
    (Nat.ldiff 0xFFC00 m) >>> 10 = 1023 - (m / 1024) % 1024 := by
  rw [← nat_ldiff_offset_mask]
  apply Nat.eq_of_testBit_eq
  intro i
  have h1 : (1024 : Nat) = 2 ^ 10 := by norm_num
  have h2 : (0xFFC00 : Nat) = (2 ^ 10 - 1) <<< 10 := by decide
  have h3 : (1023 : Nat) = 2 ^ 10 - 1 := by norm_num
  rw [Nat.testBit_shiftRight, Nat.testBit_ldiff, Nat.testBit_ldiff, h2, h3, h1,
    ← Nat.shiftRight_eq_div_pow, Nat.testBit_shiftRight, Nat.testBit_shiftLeft,
    Nat.testBit_two_pow_sub_one, Nat.testBit_two_pow_sub_one]
  by_cases hi : i < 10 <;> simp [hi, Nat.add_comm]

theorem offset_eq_mod (A : Int) : offset A = A % 1024 := by
  unfold offset OFFSET_MASK
  cases A with
  | ofNat a =>
    show ((a &&& 1023 : Nat) : Int) = (a : Int) % 1024
    rw [nat_land_offset_mask]; norm_cast
  | negSucc m =>
    show ((Nat.ldiff 1023 m : Nat) : Int) = Int.negSucc m % 1024
    rw [nat_ldiff_offset_mask, Int.emod_negSucc]
    simp [Int.subNatNat_eq_coe]
    omega

theorem logical_page_eq_div_mod (A : Int) : logical_page A = (A / 1024) % 1024 := by
  unfold logical_page PAGE_MASK OFFSET_BITS
  cases A with
  | ofNat a =>
    show (((a &&& 0xFFC00) >>> 10 : Nat) : Int) = ((a : Int) / 1024) % 1024
    rw [nat_land_page_mask]; norm_cast
  | negSucc m =>
    show (((Nat.ldiff 0xFFC00 m) >>> 10 : Nat) : Int) = (Int.negSucc m / 1024) % 1024
    rw [nat_ldiff_page_mask]
    have h : Int.negSucc m / 1024 = Int.negSucc (m / 1024) := by
      rw [Int.negSucc_ediv m (by norm_num)]
      simp [Int.negSucc_eq]
      rfl
    rw [h, Int.emod_negSucc]
    simp [Int.subNatNat_eq_coe]
    omega

theorem offset_range (A : Int) : 0 ≤ offset A ∧ offset A < 1024 := by
  rw [offset_eq_mod]; omega

theorem logical_page_range (A : Int) : 0 ≤ logical_page A ∧ logical_page A < 1024 := by
  rw [logical_page_eq_div_mod]; omega

/-! ## C1, C2: the address decoder -/

/-- C1. For every logical address `A` the decode step of `main` yields
`offset = A mod 1024` and `page = (A / 1024) mod 1024`, and both lie in `0..1023`,
also when `A ≥ 2^20`.  The statement holds for every integer `A`; for the
non-negative addresses of the claim `/` and `%` are the usual quotient and remainder. -/
theorem decode_spec (A : Int) :
    offset A = A % 1024 ∧ logical_page A = (A / 1024) % 1024 ∧
    (0 ≤ offset A ∧ offset A < 1024) ∧ (0 ≤ logical_page A ∧ logical_page A < 1024) :=
  ⟨offset_eq_mod A, logical_page_eq_div_mod A, offset_range A, logical_page_range A⟩

/-- C2. Round trip: for every address `A` with `0 ≤ A < 2^20`, reassembling the decoded
page and offset as `(page << 10) | offset` gives back `A`. -/
theorem decode_roundtrip (A : Int) (h0 : 0 ≤ A) (h1 : A < 2 ^ 20) :
    Int.lor (logical_page A <<< (OFFSET_BITS : Int)) (offset A) = A := by
  obtain ⟨a, rfl⟩ := Int.eq_ofNat_of_zero_le h0
  have ha : a < 2 ^ 20 := by exact_mod_cast h1
  have hp : logical_page (a : Int) = ((a / 1024 : Nat) : Int) := by
    rw [logical_page_eq_div_mod]
    have : a / 1024 < 1024 := by omega
    omega
  have ho : offset (a : Int) = ((a % 1024 : Nat) : Int) := by
    rw [offset_eq_mod]; omega
  rw [hp, ho, OFFSET_BITS, Int.shiftLeft_eq_mul_pow]
  have hm : ((a / 1024 : Nat) : Int) * ((2 ^ 10 : Nat) : Int) = ((2 ^ 10 * (a / 1024) : Nat) : Int) := by
    push_cast; ring
  rw [hm]
  show ((2 ^ 10 * (a / 1024) ||| a % 1024 : Nat) : Int) = (a : Int)
  have hlt : a % 1024 < 2 ^ 10 := by omega
  rw [← Nat.mul_add_lt_is_or hlt]
  congr 1
  omega

theorem decode_roundtrip_witness :
    (0 : Int) ≤ 1047575 ∧ (1047575 : Int) < 2 ^ 20 ∧
    Int.lor (logical_page 1047575 <<< (OFFSET_BITS : Int)) (offset 1047575) = 1047575 :=
  ⟨by norm_num, by norm_num, decode_roundtrip 1047575 (by norm_num) (by norm_num)⟩

/-! ## The clock scan of `add_to_tlb` -/

theorem add_to_tlb_succ_clear (fuel logical physical : Nat) (s : State)
    (h : (s.tlb s.tlbindex).reference ≠ 0) :
    add_to_tlb (fuel + 1) logical physical s =
      add_to_tlb fuel logical physical { s with
        tlb := Function.update s.tlb s.tlbindex { s.tlb s.tlbindex with reference := 0 }
        tlbindex := (s.tlbindex + 1) % TLB_SIZE } := by
  simp only [add_to_tlb, if_neg h]

theorem add_to_tlb_succ_place (fuel logical physical : Nat) (s : State)
    (h : (s.tlb s.tlbindex).reference = 0) :
    add_to_tlb (fuel + 1) logical physical s =
      some { s with
        tlb := Function.update s.tlb s.tlbindex ⟨logical, physical, 1⟩
        tlbindex := (s.tlbindex + 1) % TLB_SIZE } := by
  simp only [add_to_tlb, if_pos h]

/-- The scan stops at the first slot, `k < 16` places after the clock pointer, whose
reference bit is zero. -/
theorem add_to_tlb_scan (logical physical : Nat) :
    ∀ (k : Nat) (s : State) (extra : Nat), s.tlbindex < 16 → k < 16 →
      (∀ j, j < k → (s.tlb ((s.tlbindex + j) % 16)).reference ≠ 0) →
      (s.tlb ((s.tlbindex + k) % 16)).reference = 0 →
      ∃ s1, add_to_tlb (k + 1 + extra) logical physical s = some s1 ∧
        s1.tlb ((s.tlbindex + k) % 16) = ⟨logical, physical, 1⟩ ∧
        (∀ j, j < k → s1.tlb ((s.tlbindex + j) % 16) =
          { s.tlb ((s.tlbindex + j) % 16) with reference := 0 }) ∧
        (∀ i, (∀ j, j ≤ k → i ≠ (s.tlbindex + j) % 16) → s1.tlb i = s.tlb i) ∧
        s1.tlbindex = (s.tlbindex + k + 1) % 16 ∧
        same_but_tlb s s1 := by
  intro k
  induction k with
  | zero =>
    intro s extra hp _ _ hstop
    have hp0 : (s.tlbindex + 0) % 16 = s.tlbindex := by omega
    rw [hp0] at hstop
    refine ⟨{ s with
        tlb := Function.update s.tlb s.tlbindex ⟨logical, physical, 1⟩
        tlbindex := (s.tlbindex + 1) % TLB_SIZE }, ?_, ?_, ?_, ?_, ?_, ?_⟩
    · rw [Nat.zero_add, Nat.add_comm 1 extra]
      exact add_to_tlb_succ_place extra logical physical s hstop
    · rw [hp0]; simp
    · intro j hj; omega
    · intro i hi
      have := hi 0 (Nat.le_refl 0)
      rw [hp0] at this
      simp [Function.update_noteq this]
    · simp [TLB_SIZE]
    · simp [same_but_tlb]
  | succ k ih =>
    intro s extra hp hk hskip hstop
    have h0 : (s.tlb s.tlbindex).reference ≠ 0 := by
      have := hskip 0 (by omega)
      have hp0 : (s.tlbindex + 0) % 16 = s.tlbindex := by omega
      rwa [hp0] at this
    have hfuel : k + 1 + 1 + extra = (k + 1 + extra) + 1 := by omega
    rw [hfuel, add_to_tlb_succ_clear _ _ _ _ h0]
    obtain ⟨s1, hrun, hnew, hpass, hrest, hidx, hframe⟩ := ih
      { s with
        tlb := Function.update s.tlb s.tlbindex { s.tlb s.tlbindex with reference := 0 }
        tlbindex := (s.tlbindex + 1) % TLB_SIZE } extra
      (by simp only [TLB_SIZE]; omega) (by omega)
      (by
        intro j hj
        simp only [TLB_SIZE]
        have hne : ((s.tlbindex + 1) % 16 + j) % 16 ≠ s.tlbindex := by omega
        rw [Function.update_noteq hne]
        have : ((s.tlbindex + 1) % 16 + j) % 16 = (s.tlbindex + (j + 1)) % 16 := by omega
        rw [this]
        exact hskip (j + 1) (by omega))
      (by
        simp only [TLB_SIZE]
        have hne : ((s.tlbindex + 1) % 16 + k) % 16 ≠ s.tlbindex := by omega
        rw [Function.update_noteq hne]
        have : ((s.tlbindex + 1) % 16 + k) % 16 = (s.tlbindex + (k + 1)) % 16 := by omega
        rw [this]
        exact hstop)
    simp only [TLB_SIZE] at hnew hpass hrest hidx
    refine ⟨s1, hrun, ?_, ?_, ?_, ?_, hframe⟩
    · have : ((s.tlbindex + 1) % 16 + k) % 16 = (s.tlbindex + (k + 1)) % 16 := by omega
      rw [← this]; exact hnew
    · intro j hj
      cases j with
      | zero =>
        have hp0 : (s.tlbindex + 0) % 16 = s.tlbindex := by omega
        rw [hp0, hrest s.tlbindex (by intro j hj; omega)]
        simp
      | succ j =>
        have e : ((s.tlbindex + 1) % 16 + j) % 16 = (s.tlbindex + (j + 1)) % 16 := by omega
        have hne : (s.tlbindex + (j + 1)) % 16 ≠ s.tlbindex := by omega
        have := hpass j (by omega)
        rw [e, Function.update_noteq hne] at this
        exact this
    · intro i hi
      have hne : i ≠ s.tlbindex := by
        have := hi 0 (by omega)
        have hp0 : (s.tlbindex + 0) % 16 = s.tlbindex := by omega
        rwa [hp0] at this
      rw [hrest i (by
        intro j hj
        have := hi (j + 1) (by omega)
        have e : ((s.tlbindex + 1) % 16 + j) % 16 = (s.tlbindex + (j + 1)) % 16 := by omega
        rwa [e]), Function.update_noteq hne]
    · rw [hidx]; omega

/-- The general form of the scan: `k ≤ 16` slots are passed over, and `k = 16` means
that no slot had reference bit zero, so that the scan comes back to the slot it
started from. -/
theorem add_to_tlb_clock (logical physical : Nat) (s : State) (k extra : Nat)
    (hp : s.tlbindex < 16) (hk : k ≤ 16)
    (hskip : ∀ j, j < k → (s.tlb ((s.tlbindex + j) % 16)).reference ≠ 0)
    (hstop : k < 16 → (s.tlb ((s.tlbindex + k) % 16)).reference = 0) :
    ∃ s1, add_to_tlb (k + 1 + extra) logical physical s = some s1 ∧
      s1.tlb ((s.tlbindex + k) % 16) = ⟨logical, physical, 1⟩ ∧
      (∀ j, j < k → (s.tlbindex + j) % 16 ≠ (s.tlbindex + k) % 16 →
        s1.tlb ((s.tlbindex + j) % 16) =
          { s.tlb ((s.tlbindex + j) % 16) with reference := 0 }) ∧
      (∀ i, (∀ j, j ≤ k → i ≠ (s.tlbindex + j) % 16) → s1.tlb i = s.tlb i) ∧
      s1.tlbindex = (s.tlbindex + k + 1) % 16 ∧
      same_but_tlb s s1 := by
  rcases Nat.lt_or_ge k 16 with hlt | hge
  · obtain ⟨s1, h1, h2, h3, h4, h5, h6⟩ :=
      add_to_tlb_scan logical physical k s extra hp hlt hskip (hstop hlt)
    exact ⟨s1, h1, h2, fun j hj _ => h3 j hj, h4, h5, h6⟩
  · have hk16 : k = 16 := by omega
    subst hk16
    have h0 : (s.tlb s.tlbindex).reference ≠ 0 := by
      have := hskip 0 (by omega)
      have hp0 : (s.tlbindex + 0) % 16 = s.tlbindex := by omega
      rwa [hp0] at this
    have hfuel : 16 + 1 + extra = (15 + 1 + extra) + 1 := by omega
    rw [hfuel, add_to_tlb_succ_clear _ _ _ _ h0]
    obtain ⟨s1, hrun, hnew, hpass, hrest, hidx, hframe⟩ := add_to_tlb_scan logical physical 15
      { s with
        tlb := Function.update s.tlb s.tlbindex { s.tlb s.tlbindex with reference := 0 }
        tlbindex := (s.tlbindex + 1) % TLB_SIZE } extra
      (by simp only [TLB_SIZE]; omega) (by omega)
      (by
        intro j hj
        simp only [TLB_SIZE]
        have hne : ((s.tlbindex + 1) % 16 + j) % 16 ≠ s.tlbindex := by omega
        rw [Function.update_noteq hne]
        have : ((s.tlbindex + 1) % 16 + j) % 16 = (s.tlbindex + (j + 1)) % 16 := by omega
        rw [this]
        exact hskip (j + 1) (by omega))
      (by
        simp only [TLB_SIZE]
        have : ((s.tlbindex + 1) % 16 + 15) % 16 = s.tlbindex := by omega
        rw [this]
        simp)
    simp only [TLB_SIZE] at hnew hpass hrest hidx
    refine ⟨s1, hrun, ?_, ?_, ?_, ?_, hframe⟩
    · have : ((s.tlbindex + 1) % 16 + 15) % 16 = (s.tlbindex + 16) % 16 := by omega
      rw [← this]; exact hnew
    · intro j hj hne
      cases j with
      | zero => exact absurd (by omega) hne
      | succ j =>
        have e : ((s.tlbindex + 1) % 16 + j) % 16 = (s.tlbindex + (j + 1)) % 16 := by omega
        have hne1 : (s.tlbindex + (j + 1)) % 16 ≠ s.tlbindex := by omega
        have := hpass j (by omega)
        rw [e, Function.update_noteq hne1] at this
        exact this
    · intro i hi
      have hne : i ≠ s.tlbindex := by
        have := hi 0 (by omega)
        have hp0 : (s.tlbindex + 0) % 16 = s.tlbindex := by omega
        rwa [hp0] at this
      rw [hrest i (by
        intro j hj
        have := hi (j + 1) (by omega)
        have e : ((s.tlbindex + 1) % 16 + j) % 16 = (s.tlbindex + (j + 1)) % 16 := by omega
        rwa [e]), Function.update_noteq hne]
    · rw [hidx]; omega

/-- While only slots with a non-zero reference bit have been met, the loop has not
returned: a budget of `k` iterations is used up by `k` clearing steps. -/
theorem add_to_tlb_none (logical physical : Nat) :
    ∀ (k : Nat) (s : State), s.tlbindex < 16 → k ≤ 16 →
      (∀ j, j < k → (s.tlb ((s.tlbindex + j) % 16)).reference ≠ 0) →
      add_to_tlb k logical physical s = none := by
  intro k
  induction k with
  | zero => intro s _ _ _; rfl
  | succ k ih =>
    intro s hp hk hskip
    have h0 : (s.tlb s.tlbindex).reference ≠ 0 := by
      have := hskip 0 (by omega)
      have hp0 : (s.tlbindex + 0) % 16 = s.tlbindex := by omega
      rwa [hp0] at this
    rw [add_to_tlb_succ_clear _ _ _ _ h0]
    apply ih _ (by simp only [TLB_SIZE]; omega) (by omega)
    intro j hj
    simp only [TLB_SIZE]
    have hne : ((s.tlbindex + 1) % 16 + j) % 16 ≠ s.tlbindex := by omega
    rw [Function.update_noteq hne]
    have : ((s.tlbindex + 1) % 16 + j) % 16 = (s.tlbindex + (j + 1)) % 16 := by omega
    rw [this]
    exact hskip (j + 1) (by omega)

/-- A larger iteration budget does not change a result already obtained. -/
theorem add_to_tlb_mono (logical physical : Nat) :
    ∀ (fuel extra : Nat) (s s1 : State),
      add_to_tlb fuel logical physical s = some s1 →
      add_to_tlb (fuel + extra) logical physical s = some s1 := by
  intro fuel
  induction fuel with
  | zero => intro extra s s1 h; simp [add_to_tlb] at h
  | succ fuel ih =>
    intro extra s s1 h
    have e : fuel + 1 + extra = (fuel + extra) + 1 := by omega
    rw [e]
    by_cases h0 : (s.tlb s.tlbindex).reference = 0
    · rw [add_to_tlb_succ_place _ _ _ _ h0] at h ⊢
      exact h
    · rw [add_to_tlb_succ_clear _ _ _ _ h0] at h ⊢
      exact ih extra _ _ h

/-- Termination: from a clock pointer in `0..15`, seventeen iterations are enough. -/
theorem add_to_tlb_total (logical physical : Nat) (s : State) (hp : s.tlbindex < 16)
    (fuel : Nat) (hf : 17 ≤ fuel) :
    ∃ s1, add_to_tlb fuel logical physical s = some s1 := by
  by_cases h : ∃ j, j < 16 ∧ (s.tlb ((s.tlbindex + j) % 16)).reference = 0
  · have hk := Nat.find_spec h
    have hmin := fun j (hj : j < Nat.find h) => Nat.find_min h hj
    obtain ⟨s1, h1, _⟩ := add_to_tlb_clock logical physical s (Nat.find h)
      (fuel - (Nat.find h + 1)) hp (by omega)
      (by
        intro j hj hz
        exact hmin j hj ⟨by omega, hz⟩)
      (fun _ => hk.2)
    have e : Nat.find h + 1 + (fuel - (Nat.find h + 1)) = fuel := by omega
    rw [e] at h1
    exact ⟨s1, h1⟩
  · obtain ⟨s1, h1, _⟩ := add_to_tlb_clock logical physical s 16 (fuel - 17) hp (by omega)
      (by
        intro j hj hz
        exact h ⟨j, hj, hz⟩)
      (by omega)
    have e : 16 + 1 + (fuel - 17) = fuel := by omega
    rw [e] at h1
    exact ⟨s1, h1⟩

/-- What every completed call of `add_to_tlb` does to the TLB, whatever the budget:
one slot `t` in `0..15` receives the new entry; every other slot keeps its page and
frame and either keeps its reference bit or has it cleared. -/
theorem add_to_tlb_effect (logical physical : Nat) :
    ∀ (fuel : Nat) (s s1 : State), s.tlbindex < 16 →
      add_to_tlb fuel logical physical s = some s1 →
      ∃ t, t < 16 ∧ s1.tlb t = ⟨logical, physical, 1⟩ ∧
        (∀ i, i ≠ t → (s1.tlb i).logical = (s.tlb i).logical ∧
          (s1.tlb i).physical = (s.tlb i).physical ∧
          ((s1.tlb i).reference = (s.tlb i).reference ∨ (s1.tlb i).reference = 0)) ∧
        (∀ i, 16 ≤ i → s1.tlb i = s.tlb i) ∧
        s1.tlbindex < 16 ∧ same_but_tlb s s1 := by
  intro fuel
  induction fuel with
  | zero => intro s s1 _ h; simp [add_to_tlb] at h
  | succ fuel ih =>
    intro s s1 hp h
    by_cases h0 : (s.tlb s.tlbindex).reference = 0
    · rw [add_to_tlb_succ_place _ _ _ _ h0] at h
      cases h
      refine ⟨s.tlbindex, hp, by simp, ?_, ?_, ?_, ?_⟩
      · intro i hi
        simp [Function.update_noteq hi]
      · intro i hi
        have : i ≠ s.tlbindex := by omega
        simp [Function.update_noteq this]
      · simp only [TLB_SIZE]; omega
      · simp [same_but_tlb]
    · rw [add_to_tlb_succ_clear _ _ _ _ h0] at h
      obtain ⟨t, ht, hnew, hothers, hout, hidx, hframe⟩ :=
        ih _ s1 (by simp only [TLB_SIZE]; omega) h
      refine ⟨t, ht, hnew, ?_, ?_, hidx, hframe⟩
      · intro i hi
        obtain ⟨a, b, c⟩ := hothers i hi
        by_cases hip : i = s.tlbindex
        · subst hip
          simp at a b c
          exact ⟨a, b, Or.inr c⟩
        · simp [Function.update_noteq hip] at a b c
          exact ⟨a, b, c⟩
      · intro i hi
        have : i ≠ s.tlbindex := by omega
        rw [hout i hi]
        simp [Function.update_noteq this]

/-! ## C4, C5: second-chance replacement -/

/-- C4. `add_to_tlb(page, frame)` is second-chance replacement.  With the clock pointer
`p` in `0..15`, let `k` be the least number such that slot `(p+k) mod 16` has reference
bit 0, and `k = 16` when no slot has.  Then the call returns (after `k+1` iterations),
slot `(p+k) mod 16` holds `(page, frame)` with reference bit 1, every other slot passed
over has its reference bit cleared and its page and frame unchanged, every slot not
visited is unchanged, the clock pointer is `(p+k+1) mod 16`, and nothing outside the TLB
changes.  When `k = 0` the slot at the pointer is overwritten and no other slot changes. -/
theorem add_to_tlb_second_chance (logical physical : Nat) (s : State) (k extra : Nat)
    (hp : s.tlbindex < 16) (hk : k ≤ 16)
    (hskip : ∀ j, j < k → (s.tlb ((s.tlbindex + j) % 16)).reference ≠ 0)
    (hstop : k < 16 → (s.tlb ((s.tlbindex + k) % 16)).reference = 0) :
    ∃ s1, add_to_tlb (k + 1 + extra) logical physical s = some s1 ∧
      s1.tlb ((s.tlbindex + k) % 16) = ⟨logical, physical, 1⟩ ∧
      (∀ j, j < k → (s.tlbindex + j) % 16 ≠ (s.tlbindex + k) % 16 →
        s1.tlb ((s.tlbindex + j) % 16) =
          { s.tlb ((s.tlbindex + j) % 16) with reference := 0 }) ∧
      (∀ i, (∀ j, j ≤ k → i ≠ (s.tlbindex + j) % 16) → s1.tlb i = s.tlb i) ∧
      s1.tlbindex = (s.tlbindex + k + 1) % 16 ∧
      same_but_tlb s s1 ∧
      (k = 0 → ∀ i, i ≠ s.tlbindex → s1.tlb i = s.tlb i) := by
  obtain ⟨s1, h1, h2, h3, h4, h5, h6⟩ :=
    add_to_tlb_clock logical physical s k extra hp hk hskip hstop
  refine ⟨s1, h1, h2, h3, h4, h5, h6, ?_⟩
  intro hk0 i hi
  subst hk0
  apply h4
  intro j hj
  have : j = 0 := by omega
  subst this
  omega

theorem add_to_tlb_second_chance_witness :
    ∃ s1, add_to_tlb 17 7 9 tlb_partly_referenced = some s1 ∧
      s1.tlb 3 = ⟨7, 9, 1⟩ ∧ s1.tlb 1 = ⟨1, 101, 0⟩ ∧ s1.tlb 2 = ⟨2, 102, 0⟩ ∧
      s1.tlb 0 = ⟨0, 100, 1⟩ ∧ s1.tlbindex = 4 := by
  obtain ⟨s1, h1, h2, h3, h4, h5, _⟩ :=
    add_to_tlb_second_chance 7 9 tlb_partly_referenced 2 14 (by decide) (by decide)
      (by decide) (by decide)
  refine ⟨s1, h1, h2, h3 0 (by decide) (by decide), h3 1 (by decide) (by decide), ?_, h5⟩
  exact h4 0 (by decide)

/-- C5. Full circle: when all 16 entries have reference bit 1 and the clock pointer `p`
is in `0..15`, `add_to_tlb(page, frame)` spends sixteen iterations clearing the
reference bit of every entry (sixteen iterations do not yet return) and the seventeenth
places the new entry at the original clock position: slot `p` holds `(page, frame)` with
reference bit 1, the other 15 slots keep page and frame with reference bit 0, the clock
pointer is `(p+1) mod 16`, and nothing outside the TLB changes. -/
theorem add_to_tlb_full_circle (logical physical : Nat) (s : State) (extra : Nat)
    (hp : s.tlbindex < 16) (hall : ∀ i, i < 16 → (s.tlb i).reference = 1) :
    add_to_tlb 16 logical physical s = none ∧
    ∃ s1, add_to_tlb (17 + extra) logical physical s = some s1 ∧
      s1.tlb s.tlbindex = ⟨logical, physical, 1⟩ ∧
      (∀ i, i < 16 → i ≠ s.tlbindex → s1.tlb i = { s.tlb i with reference := 0 }) ∧
      s1.tlbindex = (s.tlbindex + 1) % 16 ∧
      same_but_tlb s s1 := by
  have hskip : ∀ j, j < 16 → (s.tlb ((s.tlbindex + j) % 16)).reference ≠ 0 := by
    intro j _
    rw [hall _ (by omega)]
    decide
  refine ⟨add_to_tlb_none logical physical 16 s hp (by omega) hskip, ?_⟩
  obtain ⟨s1, h1, h2, h3, _, h5, h6⟩ :=
    add_to_tlb_clock logical physical s 16 extra hp (by omega) hskip (by omega)
  have e : (s.tlbindex + 16) % 16 = s.tlbindex := by omega
  rw [e] at h2 h3
  refine ⟨s1, h1, h2, ?_, by rw [h5]; omega, h6⟩
  intro i hi hne
  have hj : (s.tlbindex + (i + 16 - s.tlbindex) % 16) % 16 = i := by omega
  have := h3 ((i + 16 - s.tlbindex) % 16) (by omega) (by omega)
  rwa [hj] at this

theorem add_to_tlb_full_circle_witness :
    add_to_tlb 16 7 9 tlb_all_referenced = none ∧
    ∃ s1, add_to_tlb 17 7 9 tlb_all_referenced = some s1 ∧
      s1.tlb 5 = ⟨7, 9, 1⟩ ∧ s1.tlb 4 = ⟨4, 104, 0⟩ ∧ s1.tlb 6 = ⟨6, 106, 0⟩ ∧
      s1.tlbindex = 6 := by
  obtain ⟨h0, s1, h1, h2, h3, h4, _⟩ :=
    add_to_tlb_full_circle 7 9 tlb_all_referenced 0 (by decide) (by intro i _; rfl)
  exact ⟨h0, s1, h1, h2, h3 4 (by decide) (by decide), h3 6 (by decide) (by decide), h4⟩

/-! ## The scan of `search_tlb` -/

theorem search_tlb_loop_miss (page : Nat) (s : State) :
    ∀ (n i : Nat), (∀ j, j < n → (s.tlb (i + j)).logical ≠ page) →
      search_tlb_loop page s n i = (-1, s) := by
  intro n
  induction n with
  | zero => intro i _; rfl
  | succ n ih =>
    intro i h
    have h0 : (s.tlb i).logical ≠ page := by simpa using h 0 (by omega)
    simp only [search_tlb_loop, if_neg h0]
    apply ih
    intro j hj
    have := h (j + 1) (by omega)
    have e : i + 1 + j = i + (j + 1) := by omega
    rwa [e]

theorem search_tlb_loop_hit (page : Nat) (s : State) :
    ∀ (m n i : Nat), m < n → (s.tlb (i + m)).logical = page →
      (∀ j, j < m → (s.tlb (i + j)).logical ≠ page) →
      search_tlb_loop page s n i =
        (toInt32 (s.tlb (i + m)).physical,
          { s with tlb := Function.update s.tlb (i + m) { s.tlb (i + m) with reference := 1 } }) := by
  intro m
  induction m with
  | zero =>
    intro n i hn hm _
    obtain ⟨n, rfl⟩ : ∃ n1, n = n1 + 1 := ⟨n - 1, by omega⟩
    rw [Nat.add_zero] at hm
    simp only [search_tlb_loop, if_pos hm, Nat.add_zero]
  | succ m ih =>
    intro n i hn hm hbefore
    obtain ⟨n, rfl⟩ : ∃ n1, n = n1 + 1 := ⟨n - 1, by omega⟩
    have h0 : (s.tlb i).logical ≠ page := by simpa using hbefore 0 (by omega)
    simp only [search_tlb_loop, if_neg h0]
    have e : i + (m + 1) = i + 1 + m := by omega
    rw [e] at hm ⊢
    apply ih n (i + 1) (by omega) hm
    intro j hj
    have := hbefore (j + 1) (by omega)
    have e1 : i + 1 + j = i + (j + 1) := by omega
    rwa [e1]

theorem search_tlb_miss (page : Nat) (s : State)
    (h : ∀ i, i < 16 → (s.tlb i).logical ≠ page) : search_tlb page s = (-1, s) := by
  unfold search_tlb
  apply search_tlb_loop_miss
  intro j hj
  rw [Nat.zero_add]
  exact h j hj

theorem search_tlb_hit (page : Nat) (s : State) (i : Nat) (hi : i < 16)
    (hm : (s.tlb i).logical = page) (hfirst : ∀ j, j < i → (s.tlb j).logical ≠ page) :
    search_tlb page s =
      (toInt32 (s.tlb i).physical,
        { s with tlb := Function.update s.tlb i { s.tlb i with reference := 1 } }) := by
  unfold search_tlb
  have := search_tlb_loop_hit page s i TLB_SIZE 0 hi (by rwa [Nat.zero_add])
    (by intro j hj; rw [Nat.zero_add]; exact hfirst j hj)
  rwa [Nat.zero_add] at this

theorem toInt32_of_lt (u : Nat) (h : u < 2147483648) : toInt32 u = (u : Int) := by
  unfold toInt32
  have e : u % 4294967296 = u := Nat.mod_eq_of_lt (by omega)
  rw [e, if_pos h]

/-- Either some slot in `0..15` holds the page, and then there is a first such slot, or
none does. -/
theorem search_tlb_cases (page : Nat) (s : State) :
    (∃ i, i < 16 ∧ (s.tlb i).logical = page ∧ ∀ j, j < i → (s.tlb j).logical ≠ page) ∨
    (∀ i, i < 16 → (s.tlb i).logical ≠ page) := by
  by_cases h : ∃ i, i < 16 ∧ (s.tlb i).logical = page
  · left
    refine ⟨Nat.find h, (Nat.find_spec h).1, (Nat.find_spec h).2, ?_⟩
    intro j hj hz
    exact Nat.find_min h hj ⟨by have := (Nat.find_spec h).1; omega, hz⟩
  · right
    intro i hi hz
    exact h ⟨i, hi, hz⟩

/-! ## C6: `search_tlb` -/

theorem toInt32_of_ge (u : Nat) (h0 : 2147483648 ≤ u) (h1 : u < 4294967296) :
    toInt32 u = (u : Int) - 4294967296 := by
  unfold toInt32
  have e : u % 4294967296 = u := Nat.mod_eq_of_lt h1
  rw [e, if_neg (by omega)]

/-- C6, as stated, fails.  In the TLB whose slot 3 holds page 3 with the frame
`0xFFFFFFFF`, slot 3 is the first entry for page 3, yet `search_tlb(3)` returns `-1`,
the value of a miss, and not the frame 4294967295, while it has set the reference bit of
the entry. -/
theorem search_tlb_frame_counterexample :
    (tlb_frame_all_ones.tlb 3).logical = 3 ∧
    (∀ j, j < 3 → (tlb_frame_all_ones.tlb j).logical ≠ 3) ∧
    (tlb_frame_all_ones.tlb 3).physical = 4294967295 ∧
    (search_tlb 3 tlb_frame_all_ones).1 = -1 ∧
    (search_tlb 3 tlb_frame_all_ones).1 ≠ ((tlb_frame_all_ones.tlb 3).physical : Int) ∧
    ((search_tlb 3 tlb_frame_all_ones).2.tlb 3).reference = 1 ∧
    (tlb_frame_all_ones.tlb 3).reference = 0 := by
  refine ⟨by decide, by decide, by decide, by decide, by decide, by decide, by decide⟩

/-- C6, amended.  `search_tlb(page)`, for every page and every TLB state.  If some entry
holds the page, with `i` the first such slot, the call returns that entry's frame
converted from `unsigned int` to the `int` result: the frame itself when it is below
`2^31`, the frame minus `2^32` otherwise (so `-1` for the frame `0xFFFFFFFF`).  It sets
that entry's reference bit to 1 and changes nothing else: no page or frame, no other
reference bit, not the clock pointer, nothing outside the TLB.  If no entry holds the
page the call returns `-1` and leaves the state unchanged. -/
theorem search_tlb_spec (page : Nat) (s : State) :
    (∀ i, i < 16 → (s.tlb i).logical = page → (∀ j, j < i → (s.tlb j).logical ≠ page) →
      (search_tlb page s).1 = toInt32 (s.tlb i).physical ∧
      ((s.tlb i).physical < 2147483648 → (search_tlb page s).1 = ((s.tlb i).physical : Int)) ∧
      (2147483648 ≤ (s.tlb i).physical → (s.tlb i).physical < 4294967296 →
        (search_tlb page s).1 = ((s.tlb i).physical : Int) - 4294967296) ∧
      (search_tlb page s).2 =
        { s with tlb := Function.update s.tlb i { s.tlb i with reference := 1 } }) ∧
    ((∀ i, i < 16 → (s.tlb i).logical ≠ page) → search_tlb page s = (-1, s)) := by
  refine ⟨?_, search_tlb_miss page s⟩
  intro i hi hm hfirst
  rw [search_tlb_hit page s i hi hm hfirst]
  exact ⟨rfl, fun h => toInt32_of_lt _ h, fun h0 h1 => toInt32_of_ge _ h0 h1, rfl⟩

theorem search_tlb_spec_witness :
    ((search_tlb 2 tlb_partly_referenced).1 = 102 ∧
      (search_tlb 2 tlb_partly_referenced).2 =
        { tlb_partly_referenced with
          tlb := Function.update tlb_partly_referenced.tlb 2 ⟨2, 102, 1⟩ }) ∧
    (search_tlb 3 tlb_frame_all_ones).1 = (4294967295 : Int) - 4294967296 ∧
    search_tlb 500 tlb_partly_referenced = (-1, tlb_partly_referenced) := by
  have h := search_tlb_spec 2 tlb_partly_referenced
  have h1 := search_tlb_spec 500 tlb_partly_referenced
  have h2 := search_tlb_spec 3 tlb_frame_all_ones
  obtain ⟨_, hb, _, hc⟩ := h.1 2 (by decide) (by decide) (by decide)
  obtain ⟨_, _, hd, _⟩ := h2.1 3 (by decide) (by decide) (by decide)
  exact ⟨⟨hb (by decide), hc⟩, hd (by decide) (by decide), h1.2 (by decide)⟩

/-! ## Conversions on the values the program handles -/

theorem toUInt32_neg_one : toUInt32 (-1) = 4294967295 := by decide

theorem toUInt32_of_range (p : Int) (h0 : 0 ≤ p) (h1 : p < 4294967296) :
    ((toUInt32 p : Nat) : Int) = p := by
  unfold toUInt32
  omega

theorem toUInt32_lt (p : Int) (n : Nat) (h0 : 0 ≤ p) (h1 : p < n) (hn : n ≤ 4294967296) :
    toUInt32 p < n := by
  have := toUInt32_of_range p h0 (by omega)
  omega

/-- Frames are numbered by pages: at most 1024 frames can each be the frame of a page. -/
theorem frames_le_pages (pt : Int → Int) (n : Nat)
    (h : ∀ f : Nat, f < n → ∃ p : Int, 0 ≤ p ∧ p < 1024 ∧ pt p = (f : Int)) : n ≤ 1024 := by
  classical
  choose g hg using h
  have hlt : ∀ f : Fin n, (g f.1 f.2).toNat < 1024 := by
    intro f
    have := hg f.1 f.2
    omega
  have inj : Function.Injective (fun f : Fin n => (⟨(g f.1 f.2).toNat, hlt f⟩ : Fin 1024)) := by
    intro x y hxy
    have hx := hg x.1 x.2
    have hy := hg y.1 y.2
    have h1 : (g x.1 x.2).toNat = (g y.1 y.2).toNat := congrArg Fin.val hxy
    have h2 : g x.1 x.2 = g y.1 y.2 := by omega
    have h3 : (x.1 : Int) = (y.1 : Int) := by rw [← hx.2.2, ← hy.2.2, h2]
    apply Fin.ext
    exact_mod_cast h3
  have hcard := Fintype.card_le_of_injective _ inj
  rw [Fintype.card_fin, Fintype.card_fin] at hcard
  exact hcard

theorem Inv.free_page_le {backing : Int → Int} {s : State} (h : Inv backing s) :
    s.free_page ≤ 1024 :=
  frames_le_pages s.pagetable s.free_page h.pt_onto

theorem init_inv (backing : Int → Int) : Inv backing init where
  idx := by decide
  pt_range := by
    intro p h0 h1
    left
    simp [init, PAGES, h0, h1]
  pt_onto := by
    intro f hf
    simp [init] at hf
  pt_inj := by
    intro p q h0 h1 _ _ hne
    simp [init, PAGES, h0, h1] at hne
  mem := by
    intro p h0 h1 hne
    simp [init, PAGES, h0, h1] at hne
  tlb_pt := by
    intro i hi hne
    simp [init, TLB_SIZE, hi, toUInt32_neg_one] at hne
  tlb_uniq := by
    intro i j hi _ hne
    simp [init, TLB_SIZE, hi, toUInt32_neg_one] at hne
  tlb_out := by
    intro i hi
    have : ¬ i < 16 := by omega
    simp [init, TLB_SIZE, this]
  hits_nonneg := by simp [init]
  faults_eq := by simp [init]
  stats_le := by simp [init]

/-! ## The three paths of one translation -/

/-- Under the invariant, `search_tlb` on a page number either finds the page in some
slot and returns the frame the page table holds for it, or finds nothing and returns
`-1` without touching the state. -/
theorem search_tlb_inv {backing : Int → Int} {s : State} (h : Inv backing s) (s0 : State)
    (hs0 : s0.tlb = s.tlb) (p : Int) (h0 : 0 ≤ p) (h1 : p < 1024) :
    (∃ i, i < 16 ∧ (s.tlb i).logical = toUInt32 p ∧ s.pagetable p ≠ -1 ∧
      ((s.tlb i).physical : Int) = s.pagetable p ∧
      search_tlb (toUInt32 p) s0 =
        (s.pagetable p,
          { s0 with tlb := Function.update s.tlb i { s.tlb i with reference := 1 } })) ∨
    ((∀ i, i < 16 → (s.tlb i).logical ≠ toUInt32 p) ∧ search_tlb (toUInt32 p) s0 = (-1, s0)) := by
  have hu := toUInt32_of_range p h0 (by omega)
  have hult : toUInt32 p < 1024 := toUInt32_lt p 1024 h0 h1 (by omega)
  rcases search_tlb_cases (toUInt32 p) s0 with ⟨i, hi, hm, hfirst⟩ | hmiss
  · left
    rw [hs0] at hm
    have hsent : (s.tlb i).logical ≠ 4294967295 := by omega
    obtain ⟨_, hpt⟩ := h.tlb_pt i hi hsent
    rw [hm, hu] at hpt
    have hfp := h.free_page_le
    have hne : s.pagetable p ≠ -1 := by omega
    have hlt : (s.tlb i).physical < 2147483648 := by
      rcases h.pt_range p h0 h1 with hneg | ⟨_, hb⟩
      · exact absurd hneg hne
      · omega
    refine ⟨i, hi, hm, hne, hpt.symm, ?_⟩
    rw [search_tlb_hit (toUInt32 p) s0 i hi (by rw [hs0]; exact hm) hfirst, hs0,
      toInt32_of_lt _ hlt, hpt]
  · right
    rw [hs0] at hmiss
    exact ⟨hmiss, search_tlb_miss _ s0 (by rw [hs0]; exact hmiss)⟩

/-- The three paths of one iteration of the read loop, under the invariant: a TLB hit,
a page-table hit, or a page fault.  In each case the state left and the record printed
are given in terms of the state before. -/
theorem main_step_cases {backing : Int → Int} {s s1 : State} {o : Output} {fuel : Nat}
    {a : Int} (h : Inv backing s) (hstep : main_step backing fuel s a = some (s1, o)) :
    (∃ i, i < 16 ∧ (s.tlb i).logical = toUInt32 (logical_page a) ∧
      s.pagetable (logical_page a) ≠ -1 ∧
      ((s.tlb i).physical : Int) = s.pagetable (logical_page a) ∧
      s1 = { s with
        total_addresses := s.total_addresses + 1
        tlb_hits := s.tlb_hits + 1
        tlb := Function.update s.tlb i { s.tlb i with reference := 1 } } ∧
      o = (report s1 a (s.pagetable (logical_page a))).2) ∨
    ((∀ i, i < 16 → (s.tlb i).logical ≠ toUInt32 (logical_page a)) ∧
      s.pagetable (logical_page a) ≠ -1 ∧
      add_to_tlb fuel (toUInt32 (logical_page a)) (toUInt32 (s.pagetable (logical_page a)))
        { s with total_addresses := s.total_addresses + 1 } = some s1 ∧
      o = (report s1 a (s.pagetable (logical_page a))).2) ∨
    ((∀ i, i < 16 → (s.tlb i).logical ≠ toUInt32 (logical_page a)) ∧
      s.pagetable (logical_page a) = -1 ∧
      add_to_tlb fuel (toUInt32 (logical_page a)) (toUInt32 (toInt32 s.free_page))
        (page_fault backing { s with total_addresses := s.total_addresses + 1 }
          (logical_page a)).2 = some s1 ∧
      o = (report s1 a (toInt32 s.free_page)).2) := by
  obtain ⟨hp0, hp1⟩ := logical_page_range a
  unfold main_step at hstep
  rcases search_tlb_inv h { s with total_addresses := s.total_addresses + 1 } rfl
    (logical_page a) hp0 hp1 with ⟨i, hi, hm, hne, hphys, hsearch⟩ | ⟨hmiss, hsearch⟩
  · left
    simp only [hsearch, ne_eq, hne, not_false_eq_true, if_true, Option.some.injEq] at hstep
    have e1 := congrArg Prod.fst hstep
    have e2 := congrArg Prod.snd hstep
    subst e1
    exact ⟨i, hi, hm, hne, hphys, rfl, e2.symm⟩
  · right
    simp only [hsearch, ne_eq, not_true_eq_false, if_false] at hstep
    by_cases hpt : s.pagetable (logical_page a) = -1
    · right
      simp only [hpt, if_true] at hstep
      rw [Option.map_eq_some'] at hstep
      obtain ⟨s2, hadd, hrep⟩ := hstep
      have e1 : s2 = s1 := congrArg Prod.fst hrep
      subst e1
      exact ⟨hmiss, hpt, hadd, (congrArg Prod.snd hrep).symm⟩
    · left
      simp only [hpt, if_false] at hstep
      rw [Option.map_eq_some'] at hstep
      obtain ⟨s2, hadd, hrep⟩ := hstep
      have e1 : s2 = s1 := congrArg Prod.fst hrep
      subst e1
      exact ⟨hmiss, hpt, hadd, (congrArg Prod.snd hrep).symm⟩

/-! ## Preservation of the invariant -/

theorem update_reference_logical (tlb : Nat → tlbentry) (i j r : Nat) :
    (Function.update tlb i { tlb i with reference := r } j).logical = (tlb j).logical := by
  by_cases hj : j = i
  · subst hj; simp
  · simp [Function.update_noteq hj]

theorem update_reference_physical (tlb : Nat → tlbentry) (i j r : Nat) :
    (Function.update tlb i { tlb i with reference := r } j).physical = (tlb j).physical := by
  by_cases hj : j = i
  · subst hj; simp
  · simp [Function.update_noteq hj]

/-- The TLB-hit path keeps the invariant. -/
theorem hit_inv {backing : Int → Int} {s : State} (h : Inv backing s) (i : Nat) (hi : i < 16) :
    Inv backing { s with
      total_addresses := s.total_addresses + 1
      tlb_hits := s.tlb_hits + 1
      tlb := Function.update s.tlb i { s.tlb i with reference := 1 } } where
  idx := h.idx
  pt_range := h.pt_range
  pt_onto := h.pt_onto
  pt_inj := h.pt_inj
  mem := h.mem
  tlb_pt := by
    intro j hj hne
    simp only [update_reference_logical, update_reference_physical] at hne ⊢
    exact h.tlb_pt j hj hne
  tlb_uniq := by
    intro j k hj hk hne he
    simp only [update_reference_logical] at hne he
    exact h.tlb_uniq j k hj hk hne he
  tlb_out := by
    intro j hj
    have : j ≠ i := by omega
    simp only [Function.update_noteq this]
    exact h.tlb_out j hj
  hits_nonneg := by have := h.hits_nonneg; show 0 ≤ s.tlb_hits + 1; omega
  faults_eq := h.faults_eq
  stats_le := by
    have := h.stats_le
    show s.tlb_hits + 1 + s.page_faults ≤ s.total_addresses + 1
    omega

/-- Counting the address keeps the invariant. -/
theorem count_inv {backing : Int → Int} {s : State} (h : Inv backing s) :
    Inv backing { s with total_addresses := s.total_addresses + 1 } where
  idx := h.idx
  pt_range := h.pt_range
  pt_onto := h.pt_onto
  pt_inj := h.pt_inj
  mem := h.mem
  tlb_pt := h.tlb_pt
  tlb_uniq := h.tlb_uniq
  tlb_out := h.tlb_out
  hits_nonneg := h.hits_nonneg
  faults_eq := h.faults_eq
  stats_le := by
    have := h.stats_le
    show s.tlb_hits + s.page_faults ≤ s.total_addresses + 1
    omega

theorem toInt32_free_page {backing : Int → Int} {s : State} (h : Inv backing s) :
    toInt32 s.free_page = (s.free_page : Int) :=
  toInt32_of_lt _ (by have := h.free_page_le; omega)

/-- The page-fault branch keeps the invariant, when the page is unmapped and no TLB slot
holds it. -/
theorem page_fault_inv {backing : Int → Int} {s : State} (h : Inv backing s) (p : Int)
    (h0 : 0 ≤ p) (h1 : p < 1024) (hpt : s.pagetable p = -1)
    (hmiss : ∀ i, i < 16 → (s.tlb i).logical ≠ toUInt32 p) :
    Inv backing (page_fault backing { s with total_addresses := s.total_addresses + 1 } p).2 := by
  have hfp := h.free_page_le
  have hconv := toInt32_free_page h
  have hnext : (s.free_page + 1) % 4294967296 = s.free_page + 1 := Nat.mod_eq_of_lt (by omega)
  have hu := toUInt32_of_range p h0 (by omega)
  have hold : ∀ q : Int, 0 ≤ q → q < 1024 → s.pagetable q ≠ -1 → q ≠ p := by
    intro q _ _ hq hqp
    rw [hqp] at hq
    exact hq hpt
  constructor
  · exact h.idx
  · intro q hq0 hq1
    simp only [page_fault, hconv, hnext]
    by_cases hqp : q = p
    · subst hqp
      right
      rw [Function.update_same]
      push_cast
      omega
    · rw [Function.update_noteq hqp]
      rcases h.pt_range q hq0 hq1 with hneg | ⟨ha, hb⟩
      · exact Or.inl hneg
      · right
        push_cast
        omega
  · intro f hf
    simp only [page_fault, hconv, hnext] at hf ⊢
    by_cases hff : f = s.free_page
    · subst hff
      exact ⟨p, h0, h1, by rw [Function.update_same]⟩
    · obtain ⟨q, hq0, hq1, hq⟩ := h.pt_onto f (by omega)
      have hqp : q ≠ p := hold q hq0 hq1 (by omega)
      exact ⟨q, hq0, hq1, by rw [Function.update_noteq hqp]; exact hq⟩
  · intro q r hq0 hq1 hr0 hr1 hne he
    simp only [page_fault, hconv] at hne he
    by_cases hqp : q = p <;> by_cases hrp : r = p
    · rw [hqp, hrp]
    · rw [hqp, Function.update_same, Function.update_noteq hrp] at he
      rcases h.pt_range r hr0 hr1 with hneg | ⟨_, hb⟩ <;> omega
    · rw [hrp, Function.update_same, Function.update_noteq hqp] at he
      rcases h.pt_range q hq0 hq1 with hneg | ⟨_, hb⟩ <;> omega
    · rw [Function.update_noteq hqp] at hne he
      rw [Function.update_noteq hrp] at he
      exact h.pt_inj q r hq0 hq1 hr0 hr1 hne he
  · intro q hq0 hq1 hne o ho0 ho1
    simp only [page_fault, hconv, memcpy, PAGE_SIZE] at hne ⊢
    by_cases hqp : q = p
    · subst hqp
      rw [Function.update_same]
      have hin : (s.free_page : Int) * 1024 ≤ (s.free_page : Int) * 1024 + o ∧
          (s.free_page : Int) * 1024 + o < (s.free_page : Int) * 1024 + 1024 := by omega
      rw [if_pos hin]
      congr 1
      omega
    · rw [Function.update_noteq hqp] at hne ⊢
      rcases h.pt_range q hq0 hq1 with hneg | ⟨ha, hb⟩
      · exact absurd hneg hne
      · have hout : ¬ ((s.free_page : Int) * 1024 ≤ s.pagetable q * 1024 + o ∧
            s.pagetable q * 1024 + o < (s.free_page : Int) * 1024 + 1024) := by omega
        rw [if_neg hout]
        exact h.mem q hq0 hq1 hne o ho0 ho1
  · intro i hi hne
    simp only [page_fault, hconv] at hne ⊢
    obtain ⟨hl, hp⟩ := h.tlb_pt i hi hne
    have hne1 : ((s.tlb i).logical : Int) ≠ p := by
      intro he
      apply hmiss i hi
      omega
    exact ⟨hl, by rw [Function.update_noteq hne1]; exact hp⟩
  · exact h.tlb_uniq
  · exact h.tlb_out
  · exact h.hits_nonneg
  · simp only [page_fault, hnext]
    have := h.faults_eq
    push_cast
    omega
  · simp only [page_fault]
    have := h.stats_le
    omega

/-- Inserting the resolved page with its page-table frame keeps the invariant, when no
TLB slot holds the page yet. -/
theorem insert_inv {backing : Int → Int} {s s1 : State} {fuel : Nat} (h : Inv backing s)
    (p : Int) (h0 : 0 ≤ p) (h1 : p < 1024) (hpt : s.pagetable p ≠ -1)
    (hmiss : ∀ i, i < 16 → (s.tlb i).logical ≠ toUInt32 p)
    (hadd : add_to_tlb fuel (toUInt32 p) (toUInt32 (s.pagetable p)) s = some s1) :
    Inv backing s1 := by
  obtain ⟨t, ht, hnew, hothers, hout, hidx, hpt1, hmem1, htot1, hhits1, hfaults1, hfp1⟩ :=
    add_to_tlb_effect _ _ fuel s s1 h.idx hadd
  have hfp := h.free_page_le
  have hu := toUInt32_of_range p h0 (by omega)
  have hult : toUInt32 p < 1024 := toUInt32_lt p 1024 h0 h1 (by omega)
  have hframe : ((toUInt32 (s.pagetable p) : Nat) : Int) = s.pagetable p := by
    rcases h.pt_range p h0 h1 with hneg | ⟨ha, hb⟩
    · exact absurd hneg hpt
    · exact toUInt32_of_range _ ha (by omega)
  constructor
  · exact hidx
  · rw [hpt1, hfp1]; exact h.pt_range
  · rw [hpt1, hfp1]; exact h.pt_onto
  · rw [hpt1]; exact h.pt_inj
  · rw [hpt1, hmem1]; exact h.mem
  · intro i hi hne
    rw [hpt1]
    by_cases hit : i = t
    · subst hit
      rw [hnew]
      exact ⟨hult, by show s.pagetable ((toUInt32 p : Nat) : Int) = _; rw [hu, hframe]⟩
    · obtain ⟨hl, hph, _⟩ := hothers i hit
      rw [hl] at hne ⊢
      rw [hph]
      exact h.tlb_pt i hi hne
  · intro i j hi hj hne he
    by_cases hit : i = t <;> by_cases hjt : j = t
    · rw [hit, hjt]
    · exfalso
      rw [hit, hnew, (hothers j hjt).1] at he
      exact hmiss j hj he.symm
    · exfalso
      rw [hjt, hnew, (hothers i hit).1] at he
      exact hmiss i hi he
    · rw [(hothers i hit).1] at hne he
      rw [(hothers j hjt).1] at he
      exact h.tlb_uniq i j hi hj hne he
  · intro i hi
    rw [hout i hi]
    exact h.tlb_out i hi
  · rw [hhits1]; exact h.hits_nonneg
  · rw [hfaults1, hfp1]; exact h.faults_eq
  · rw [hhits1, hfaults1, htot1]; exact h.stats_le

/-- One iteration of the read loop keeps the invariant. -/
theorem main_step_inv {backing : Int → Int} {s s1 : State} {o : Output} {fuel : Nat}
    {a : Int} (h : Inv backing s) (hstep : main_step backing fuel s a = some (s1, o)) :
    Inv backing s1 := by
  obtain ⟨hp0, hp1⟩ := logical_page_range a
  rcases main_step_cases h hstep with
    ⟨i, hi, _, _, _, hs1, _⟩ | ⟨hmiss, hpt, hadd, _⟩ | ⟨hmiss, hpt, hadd, _⟩
  · rw [hs1]
    exact hit_inv h i hi
  · exact insert_inv (count_inv h) (logical_page a) hp0 hp1 hpt hmiss hadd
  · have hinv := page_fault_inv h (logical_page a) hp0 hp1 hpt hmiss
    have hval : (page_fault backing { s with total_addresses := s.total_addresses + 1 }
        (logical_page a)).2.pagetable (logical_page a) = toInt32 s.free_page := by
      simp [page_fault]
    have hne : (page_fault backing { s with total_addresses := s.total_addresses + 1 }
        (logical_page a)).2.pagetable (logical_page a) ≠ -1 := by
      rw [hval, toInt32_free_page h]
      omega
    rw [← hval] at hadd
    exact insert_inv hinv (logical_page a) hp0 hp1 hne hmiss hadd

/-- Every reachable state satisfies the invariant. -/
theorem reachable_inv {backing : Int → Int} {s : State} (h : Reachable backing s) :
    Inv backing s := by
  induction h with
  | init => exact init_inv backing
  | step fuel a _ hstep ih => exact main_step_inv ih hstep

theorem search_tlb_tlbindex (page : Nat) (s : State) :
    (search_tlb page s).2.tlbindex = s.tlbindex := by
  rcases search_tlb_cases page s with ⟨i, hi, hm, hfirst⟩ | hmiss
  · rw [search_tlb_hit page s i hi hm hfirst]
  · rw [search_tlb_miss page s hmiss]

/-- One iteration of the read loop returns, when the clock pointer is in `0..15` and
the budget for the scan of `add_to_tlb` is at least 17. -/
theorem main_step_total (backing : Int → Int) (s : State) (a : Int) (fuel : Nat)
    (hidx : s.tlbindex < 16) (hf : 17 ≤ fuel) :
    ∃ s1 o, main_step backing fuel s a = some (s1, o) := by
  unfold main_step
  simp only
  split
  · exact ⟨_, _, rfl⟩
  · have hq : ∀ q : Int × State, q.2.tlbindex = s.tlbindex →
        ∃ s1 o, (add_to_tlb fuel (toUInt32 (logical_page a)) (toUInt32 q.1) q.2).map
          (fun s1 => report s1 a q.1) = some (s1, o) := by
      intro q hq
      obtain ⟨s2, h2⟩ := add_to_tlb_total (toUInt32 (logical_page a)) (toUInt32 q.1) q.2
        (by rw [hq]; exact hidx) fuel hf
      rw [h2]
      exact ⟨_, _, rfl⟩
    apply hq
    split
    · simp only [page_fault]
      exact search_tlb_tlbindex _ _
    · exact search_tlb_tlbindex _ _

/-- A run of the read loop from a state leads to a reachable state when it starts from
one. -/
theorem main_loop_reachable {backing : Int → Int} {fuel : Nat} :
    ∀ (trace : List Int) (s s1 : State) (os : List Output), Reachable backing s →
      main_loop backing fuel s trace = some (s1, os) → Reachable backing s1 := by
  intro trace
  induction trace with
  | nil =>
    intro s s1 os hr h
    simp only [main_loop, Option.some.injEq, Prod.mk.injEq] at h
    rw [← h.1]; exact hr
  | cons a rest ih =>
    intro s s1 os hr h
    simp only [main_loop] at h
    cases hstep : main_step backing fuel s a with
    | none => rw [hstep] at h; simp at h
    | some r =>
      obtain ⟨s2, o⟩ := r
      rw [hstep] at h
      simp only at h
      cases hrest : main_loop backing fuel s2 rest with
      | none => rw [hrest] at h; simp at h
      | some r2 =>
        obtain ⟨s3, os2⟩ := r2
        rw [hrest] at h
        simp only [Option.some.injEq, Prod.mk.injEq] at h
        rw [← h.1]
        exact ih s2 s3 os2 (Reachable.step fuel a hr hstep) hrest

/-- The read loop returns on every trace, from every state satisfying the invariant,
with any budget of at least 17 for the scans of `add_to_tlb`. -/
theorem main_loop_total (backing : Int → Int) (fuel : Nat) (hf : 17 ≤ fuel) :
    ∀ (trace : List Int) (s : State), Inv backing s →
      ∃ s1 os, main_loop backing fuel s trace = some (s1, os) := by
  intro trace
  induction trace with
  | nil => intro s _; exact ⟨s, [], rfl⟩
  | cons a rest ih =>
    intro s h
    obtain ⟨s2, o, hstep⟩ := main_step_total backing s a fuel h.idx hf
    obtain ⟨s3, os, hrest⟩ := ih s2 (main_step_inv h hstep)
    exact ⟨s3, o :: os, by simp only [main_loop, hstep, hrest]⟩

/-! ## What one translation resolves -/

/-- The frame one iteration resolves its page to: the page-table entry if the page is
mapped, the next free frame otherwise.  After the iteration the page table holds that
frame for the page, every other slot of the page table is as before, and the record
printed is computed from that frame. -/
theorem main_step_resolved {backing : Int → Int} {s s1 : State} {o : Output} {fuel : Nat}
    {a : Int} (h : Inv backing s) (hstep : main_step backing fuel s a = some (s1, o)) :
    ∃ f : Int, f ≠ -1 ∧ s1.pagetable (logical_page a) = f ∧ o = (report s1 a f).2 ∧
      (s.pagetable (logical_page a) ≠ -1 → f = s.pagetable (logical_page a)) ∧
      (s.pagetable (logical_page a) = -1 → f = (s.free_page : Int)) ∧
      (∀ q, q ≠ logical_page a → s1.pagetable q = s.pagetable q) := by
  rcases main_step_cases h hstep with
    ⟨i, hi, _, hne, _, hs1, ho⟩ | ⟨hmiss, hpt, hadd, ho⟩ | ⟨hmiss, hpt, hadd, ho⟩
  · refine ⟨s.pagetable (logical_page a), hne, by rw [hs1], ho, fun _ => rfl,
      fun hc => absurd hc hne, fun q _ => by rw [hs1]⟩
  · obtain ⟨_, _, _, _, _, _, hpt1, _⟩ := add_to_tlb_effect _ _ fuel _ s1 (by exact h.idx) hadd
    refine ⟨s.pagetable (logical_page a), hpt, by rw [hpt1], ho, fun _ => rfl,
      fun hc => absurd hc hpt, fun q _ => by rw [hpt1]⟩
  · obtain ⟨_, _, _, _, _, _, hpt1, _⟩ := add_to_tlb_effect _ _ fuel _ s1 (by exact h.idx) hadd
    have hconv := toInt32_free_page h
    refine ⟨toInt32 s.free_page, by rw [hconv]; omega, ?_, ho, fun hc => absurd hpt hc,
      fun _ => hconv, ?_⟩
    · rw [hpt1]; simp [page_fault]
    · intro q hq
      rw [hpt1]
      simp [page_fault, Function.update_noteq hq]

/-- The record printed by one iteration: the decoded page, the address, and the byte of
the backing store at that page and offset. -/
theorem main_step_output {backing : Int → Int} {s s1 : State} {o : Output} {fuel : Nat}
    {a : Int} (h : Inv backing s) (hstep : main_step backing fuel s a = some (s1, o)) :
    o.logical_page = logical_page a ∧ o.logical_address = a ∧
    o.value = backing (logical_page a * PAGE_SIZE + offset a) := by
  obtain ⟨f, hf, hpt, ho, _⟩ := main_step_resolved h hstep
  obtain ⟨hp0, hp1⟩ := logical_page_range a
  obtain ⟨ho0, ho1⟩ := offset_range a
  have h1 := main_step_inv h hstep
  refine ⟨by rw [ho]; rfl, by rw [ho]; rfl, ?_⟩
  rw [ho]
  show s1.main_memory (f * PAGE_SIZE + offset a) = _
  rw [← hpt]
  exact h1.mem (logical_page a) hp0 hp1 (by rw [hpt]; exact hf) (offset a) ho0 ho1

/-- A mapped page-table slot is not changed by an iteration of the read loop. -/
theorem main_step_pagetable_stable {backing : Int → Int} {s s1 : State} {o : Output}
    {fuel : Nat} {a : Int} (h : Inv backing s)
    (hstep : main_step backing fuel s a = some (s1, o)) (P : Int) (hP : s.pagetable P ≠ -1) :
    s1.pagetable P = s.pagetable P := by
  obtain ⟨f, _, hpt, _, hmapped, _, hothers⟩ := main_step_resolved h hstep
  by_cases hq : P = logical_page a
  · subst hq
    rw [hpt, hmapped hP]
  · exact hothers P hq

theorem main_loop_pagetable_stable {backing : Int → Int} {fuel : Nat} (P : Int) :
    ∀ (trace : List Int) (s s1 : State) (os : List Output), Inv backing s →
      s.pagetable P ≠ -1 → main_loop backing fuel s trace = some (s1, os) →
      s1.pagetable P = s.pagetable P := by
  intro trace
  induction trace with
  | nil =>
    intro s s1 os _ _ h
    simp only [main_loop, Option.some.injEq, Prod.mk.injEq] at h
    rw [← h.1]
  | cons a rest ih =>
    intro s s1 os hinv hP h
    simp only [main_loop] at h
    cases hstep : main_step backing fuel s a with
    | none => rw [hstep] at h; simp at h
    | some r =>
      obtain ⟨s2, o⟩ := r
      rw [hstep] at h
      simp only at h
      cases hrest : main_loop backing fuel s2 rest with
      | none => rw [hrest] at h; simp at h
      | some r2 =>
        obtain ⟨s3, os2⟩ := r2
        rw [hrest] at h
        simp only [Option.some.injEq, Prod.mk.injEq] at h
        have e := main_step_pagetable_stable hinv hstep P hP
        rw [← h.1, ih s2 s3 os2 (main_step_inv hinv hstep) (by rw [e]; exact hP) hrest, e]

/-- The counters after one iteration, path by path. -/
theorem main_step_stats {backing : Int → Int} {s s1 : State} {o : Output} {fuel : Nat}
    {a : Int} (h : Inv backing s) (hstep : main_step backing fuel s a = some (s1, o)) :
    s1.total_addresses = s.total_addresses + 1 ∧
    (((∃ i, i < 16 ∧ (s.tlb i).logical = toUInt32 (logical_page a)) ∧
        s1.tlb_hits = s.tlb_hits + 1 ∧ s1.page_faults = s.page_faults) ∨
      ((∀ i, i < 16 → (s.tlb i).logical ≠ toUInt32 (logical_page a)) ∧
        s.pagetable (logical_page a) ≠ -1 ∧
        s1.tlb_hits = s.tlb_hits ∧ s1.page_faults = s.page_faults) ∨
      ((∀ i, i < 16 → (s.tlb i).logical ≠ toUInt32 (logical_page a)) ∧
        s.pagetable (logical_page a) = -1 ∧
        s1.tlb_hits = s.tlb_hits ∧ s1.page_faults = s.page_faults + 1)) := by
  rcases main_step_cases h hstep with
    ⟨i, hi, hm, _, _, hs1, _⟩ | ⟨hmiss, hpt, hadd, _⟩ | ⟨hmiss, hpt, hadd, _⟩
  · rw [hs1]
    exact ⟨rfl, Or.inl ⟨⟨i, hi, hm⟩, rfl, rfl⟩⟩
  · obtain ⟨_, _, _, _, _, _, _, _, htot, hhits, hfaults, _⟩ :=
      add_to_tlb_effect _ _ fuel _ s1 (by exact h.idx) hadd
    exact ⟨htot, Or.inr (Or.inl ⟨hmiss, hpt, hhits, hfaults⟩)⟩
  · obtain ⟨_, _, _, _, _, _, _, _, htot, hhits, hfaults, _⟩ :=
      add_to_tlb_effect _ _ fuel _ s1 (by exact h.idx) hadd
    exact ⟨htot, Or.inr (Or.inr ⟨hmiss, hpt, hhits, hfaults⟩)⟩

theorem main_loop_cons {backing : Int → Int} {fuel : Nat} {s s1 : State} {a : Int}
    {rest : List Int} {os : List Output}
    (h : main_loop backing fuel s (a :: rest) = some (s1, os)) :
    ∃ s2 o os2, main_step backing fuel s a = some (s2, o) ∧
      main_loop backing fuel s2 rest = some (s1, os2) ∧ os = o :: os2 := by
  simp only [main_loop] at h
  cases hstep : main_step backing fuel s a with
  | none => rw [hstep] at h; simp at h
  | some r =>
    obtain ⟨s2, o⟩ := r
    rw [hstep] at h
    simp only at h
    cases hrest : main_loop backing fuel s2 rest with
    | none => rw [hrest] at h; simp at h
    | some r2 =>
      obtain ⟨s3, os2⟩ := r2
      rw [hrest] at h
      simp only [Option.some.injEq, Prod.mk.injEq] at h
      exact ⟨s2, o, os2, rfl, by rw [← h.1]; exact hrest, h.2.symm⟩

theorem main_loop_nil {backing : Int → Int} {fuel : Nat} {s s1 : State} {os : List Output}
    (h : main_loop backing fuel s [] = some (s1, os)) : s1 = s ∧ os = [] := by
  simp only [main_loop, Option.some.injEq, Prod.mk.injEq] at h
  exact ⟨h.1.symm, h.2.symm⟩

theorem main_loop_inv {backing : Int → Int} {fuel : Nat} :
    ∀ (trace : List Int) (s s1 : State) (os : List Output), Inv backing s →
      main_loop backing fuel s trace = some (s1, os) → Inv backing s1 := by
  intro trace
  induction trace with
  | nil => intro s s1 os hinv h; rw [(main_loop_nil h).1]; exact hinv
  | cons a rest ih =>
    intro s s1 os hinv h
    obtain ⟨s2, o, os2, hstep, hrest, _⟩ := main_loop_cons h
    exact ih s2 s1 os2 (main_step_inv hinv hstep) hrest

/-- The records of a run: one per address, in trace order, each with the byte of the
backing store at the decoded page and offset. -/
theorem main_loop_outputs {backing : Int → Int} {fuel : Nat} :
    ∀ (trace : List Int) (s s1 : State) (os : List Output), Inv backing s →
      main_loop backing fuel s trace = some (s1, os) →
      os.map Output.logical_address = trace ∧
      os.map Output.logical_page = trace.map logical_page ∧
      os.map Output.value =
        trace.map (fun A => backing (logical_page A * PAGE_SIZE + offset A)) := by
  intro trace
  induction trace with
  | nil =>
    intro s s1 os _ h
    rw [(main_loop_nil h).2]
    exact ⟨rfl, rfl, rfl⟩
  | cons a rest ih =>
    intro s s1 os hinv h
    obtain ⟨s2, o, os2, hstep, hrest, hos⟩ := main_loop_cons h
    obtain ⟨e1, e2, e3⟩ := ih s2 s1 os2 (main_step_inv hinv hstep) hrest
    obtain ⟨o1, o2, o3⟩ := main_step_output hinv hstep
    rw [hos]
    simp only [List.map_cons, e1, e2, e3, o1, o2, o3, and_self]

theorem main_loop_total_addresses {backing : Int → Int} {fuel : Nat} :
    ∀ (trace : List Int) (s s1 : State) (os : List Output), Inv backing s →
      main_loop backing fuel s trace = some (s1, os) →
      s1.total_addresses = s.total_addresses + (trace.length : Int) := by
  intro trace
  induction trace with
  | nil =>
    intro s s1 os _ h
    rw [(main_loop_nil h).1]
    simp
  | cons a rest ih =>
    intro s s1 os hinv h
    obtain ⟨s2, o, os2, hstep, hrest, _⟩ := main_loop_cons h
    rw [ih s2 s1 os2 (main_step_inv hinv hstep) hrest, (main_step_stats hinv hstep).1]
    simp only [List.length_cons]
    push_cast
    omega

/-! ## C3: data fidelity -/

/-- C3. Data fidelity.  For every backing store and every trace of addresses processed
from the initial state (empty TLB, empty page table, `free_page = 0`), with any budget
of at least 17 iterations for the scans of `add_to_tlb`, the read loop returns, prints
one record per address in trace order, and the byte value reported for each address `A`
is the backing-store byte at offset `page(A)*1024 + offset(A)`, an offset inside the
1,048,576 bytes of the store, whichever path resolved the address.  With the backing
store that is zero except for byte 0 = 42 and the trace `[0]`, the record is logical
page 0, physical address 0, value 42. -/
theorem data_fidelity (backing : Int → Int) (trace : List Int) (extra : Nat) :
    (∃ s1 os, main_loop backing (17 + extra) init trace = some (s1, os) ∧
      os.map Output.logical_address = trace ∧
      os.map Output.logical_page = trace.map logical_page ∧
      os.map Output.value =
        trace.map (fun A => backing (logical_page A * PAGE_SIZE + offset A))) ∧
    (∀ A : Int, 0 ≤ logical_page A * PAGE_SIZE + offset A ∧
      logical_page A * PAGE_SIZE + offset A < MEMORY_SIZE) ∧
    (main_loop sample_backing 17 init [0]).map Prod.snd = some [⟨0, 0, 0, 42⟩] := by
  refine ⟨?_, ?_, by decide⟩
  · obtain ⟨s1, os, hrun⟩ :=
      main_loop_total backing (17 + extra) (by omega) trace init (init_inv backing)
    exact ⟨s1, os, hrun, main_loop_outputs trace init s1 os (init_inv backing) hrun⟩
  · intro A
    obtain ⟨hp0, hp1⟩ := logical_page_range A
    obtain ⟨ho0, ho1⟩ := offset_range A
    simp only [PAGE_SIZE, MEMORY_SIZE, PAGES]
    omega

/-! ## C7: mapping stability -/

/-- C7. Mapping stability.  From any reachable state, an iteration of the read loop
writes no page-table slot other than that of the decoded page, and writes that one
only when it is unmapped: it then holds the frame taken from `free_page`, and a page
fault is counted.  Once the slot of a page `P` holds a frame `F`, after any further run
of the loop it still holds `F`, a `search_tlb` hit for `P` returns `F`, and a translation
of an address of page `P` takes no page fault, leaves the whole page table as it is and
prints the record computed from `F`: the slot of a page is written at most once. -/
theorem mapping_stability (backing : Int → Int) (s : State) (hs : Reachable backing s) :
    (∀ (fuel : Nat) (a : Int) (s1 : State) (o : Output),
      main_step backing fuel s a = some (s1, o) →
      (∀ q, q ≠ logical_page a → s1.pagetable q = s.pagetable q) ∧
      s1.pagetable (logical_page a) ≠ -1 ∧
      (s.pagetable (logical_page a) = -1 →
        s1.pagetable (logical_page a) = (s.free_page : Int) ∧
        s1.page_faults = s.page_faults + 1)) ∧
    (∀ (P : Int), 0 ≤ P → P < 1024 → s.pagetable P ≠ -1 →
      ∀ (fuel : Nat) (trace : List Int) (s1 : State) (os : List Output),
      main_loop backing fuel s trace = some (s1, os) →
      s1.pagetable P = s.pagetable P ∧
      ((search_tlb (toUInt32 P) s1).1 ≠ -1 → (search_tlb (toUInt32 P) s1).1 = s.pagetable P) ∧
      (∀ (fuel2 : Nat) (a : Int) (s2 : State) (o : Output),
        main_step backing fuel2 s1 a = some (s2, o) → logical_page a = P →
        s2.pagetable = s1.pagetable ∧ s2.page_faults = s1.page_faults ∧
        s2.free_page = s1.free_page ∧ o = (report s2 a (s.pagetable P)).2)) := by
  have hinv := reachable_inv hs
  constructor
  · intro fuel a s1 o hstep
    obtain ⟨f, hf, hpt, _, _, hfault, hothers⟩ := main_step_resolved hinv hstep
    refine ⟨hothers, by rw [hpt]; exact hf, ?_⟩
    intro hun
    refine ⟨by rw [hpt, hfault hun], ?_⟩
    rcases (main_step_stats hinv hstep).2 with ⟨_, _, _⟩ | ⟨_, hc, _⟩ | ⟨_, _, _, hfaults⟩
    · rcases main_step_cases hinv hstep with ⟨_, _, _, hc, _⟩ | ⟨_, hc, _⟩ | ⟨_, _, hadd, _⟩
      · exact absurd hun hc
      · exact absurd hun hc
      · obtain ⟨_, _, _, _, _, _, _, _, _, _, hfaults, _⟩ :=
          add_to_tlb_effect _ _ fuel _ s1 (by exact hinv.idx) hadd
        exact hfaults
    · exact absurd hun hc
    · exact hfaults
  · intro P hP0 hP1 hmapped fuel trace s1 os hrun
    have hinv1 := main_loop_inv trace s s1 os hinv hrun
    have hstable := main_loop_pagetable_stable P trace s s1 os hinv hmapped hrun
    refine ⟨hstable, ?_, ?_⟩
    · intro hhit
      rcases search_tlb_inv hinv1 s1 rfl P hP0 hP1 with ⟨i, _, _, _, _, hsearch⟩ | ⟨_, hsearch⟩
      · rw [hsearch, hstable]
      · rw [hsearch] at hhit
        exact absurd rfl hhit
    · intro fuel2 a s2 o hstep hpage
      subst hpage
      have hm1 : s1.pagetable (logical_page a) ≠ -1 := by rw [hstable]; exact hmapped
      obtain ⟨f, _, hpt, ho, hsame, _, hothers⟩ := main_step_resolved hinv1 hstep
      have hf : f = s.pagetable (logical_page a) := by rw [hsame hm1, hstable]
      refine ⟨?_, ?_, ?_, by rw [ho, hf]⟩
      · funext q
        by_cases hq : q = logical_page a
        · rw [hq, hpt, hsame hm1]
        · exact hothers q hq
      · rcases (main_step_stats hinv1 hstep).2 with ⟨_, _, hc⟩ | ⟨_, _, _, hc⟩ | ⟨_, hc, _⟩
        · exact hc
        · exact hc
        · exact absurd hc hm1
      · rcases main_step_cases hinv1 hstep with ⟨_, _, _, _, _, hs2, _⟩ | ⟨_, _, hadd, _⟩ |
          ⟨_, hc, _⟩
        · rw [hs2]
        · obtain ⟨_, _, _, _, _, _, _, _, _, _, _, hfp⟩ :=
            add_to_tlb_effect _ _ fuel2 _ s2 (by exact hinv1.idx) hadd
          exact hfp
        · exact absurd hc hm1

theorem after_address_zero_reachable : Reachable sample_backing after_address_zero :=
  Reachable.step 17 0 Reachable.init
    (show main_step sample_backing 17 init 0 = some (after_address_zero, ⟨0, 0, 0, 42⟩) from rfl)

theorem after_three_addresses_run :
    main_loop sample_backing 17 after_address_zero [1024, 5] =
      some (after_three_addresses, [⟨1, 1024, 1024, 0⟩, ⟨0, 5, 5, 0⟩]) := rfl

theorem mapping_stability_witness :
    after_three_addresses.pagetable 0 = after_address_zero.pagetable 0 ∧
    ((search_tlb (toUInt32 0) after_three_addresses).1 ≠ -1 →
      (search_tlb (toUInt32 0) after_three_addresses).1 = after_address_zero.pagetable 0) := by
  obtain ⟨h1, h2, _⟩ :=
    (mapping_stability sample_backing after_address_zero after_address_zero_reachable).2
      0 (by decide) (by decide) (by decide) 17 [1024, 5] after_three_addresses _
      after_three_addresses_run
  exact ⟨h1, h2⟩

/-! ## C8, C9: the TLB as a cache of the page table -/

/-- C8. TLB/page-table consistency.  In every reachable state, every TLB entry whose
logical page is not the unused sentinel (`-1` as an `unsigned int`) holds a page number
below 1024 whose page-table slot is mapped and equal to the entry's frame; so
`search_tlb` misses on every page that is unmapped in the page table.  Every reachable
state has a successor for every address. -/
theorem tlb_consistent (backing : Int → Int) (s : State) (hs : Reachable backing s) :
    (∀ i, i < 16 → (s.tlb i).logical ≠ toUInt32 (-1) →
      (s.tlb i).logical < 1024 ∧
      s.pagetable ((s.tlb i).logical : Int) = ((s.tlb i).physical : Int) ∧
      s.pagetable ((s.tlb i).logical : Int) ≠ -1) ∧
    (∀ P : Int, 0 ≤ P → P < 1024 → s.pagetable P = -1 →
      search_tlb (toUInt32 P) s = (-1, s)) ∧
    (∀ (a : Int) (extra : Nat), ∃ s1 o, main_step backing (17 + extra) s a = some (s1, o)) := by
  have hinv := reachable_inv hs
  refine ⟨?_, ?_, ?_⟩
  · intro i hi hne
    rw [toUInt32_neg_one] at hne
    obtain ⟨hl, hp⟩ := hinv.tlb_pt i hi hne
    refine ⟨hl, hp, ?_⟩
    rw [hp]
    omega
  · intro P hP0 hP1 hun
    rcases search_tlb_inv hinv s rfl P hP0 hP1 with ⟨_, _, _, hc, _⟩ | ⟨_, hsearch⟩
    · exact absurd hun hc
    · exact hsearch
  · intro a extra
    exact main_step_total backing s a (17 + extra) hinv.idx (by omega)

theorem after_three_addresses_reachable : Reachable sample_backing after_three_addresses :=
  main_loop_reachable [1024, 5] after_address_zero after_three_addresses _
    after_address_zero_reachable after_three_addresses_run

theorem tlb_consistent_witness :
    (after_three_addresses.tlb 1).logical < 1024 ∧
    after_three_addresses.pagetable ((after_three_addresses.tlb 1).logical : Int) =
      ((after_three_addresses.tlb 1).physical : Int) ∧
    after_three_addresses.pagetable ((after_three_addresses.tlb 1).logical : Int) ≠ -1 :=
  (tlb_consistent sample_backing after_three_addresses after_three_addresses_reachable).1
    1 (by decide) (by decide)

/-- C9. In every reachable state the TLB holds at most 16 entries, those of the slots
`0..15` (no cell past the sixteenth is ever written and the clock pointer stays in
`0..15`), and no two slots hold the same logical page, the unused sentinel apart. -/
theorem tlb_no_duplicates (backing : Int → Int) (s : State) (hs : Reachable backing s) :
    (∀ i, 16 ≤ i → s.tlb i = init.tlb i) ∧ s.tlbindex < 16 ∧
    (∀ i j, i < 16 → j < 16 → i ≠ j → (s.tlb i).logical ≠ toUInt32 (-1) →
      (s.tlb i).logical ≠ (s.tlb j).logical) := by
  have hinv := reachable_inv hs
  refine ⟨?_, hinv.idx, ?_⟩
  · intro i hi
    rw [hinv.tlb_out i hi]
    have : ¬ i < 16 := by omega
    simp [init, TLB_SIZE, this]
  · intro i j hi hj hij hne he
    rw [toUInt32_neg_one] at hne
    exact hij (hinv.tlb_uniq i j hi hj hne he)

theorem tlb_no_duplicates_witness :
    (after_three_addresses.tlb 0).logical ≠ (after_three_addresses.tlb 1).logical :=
  (tlb_no_duplicates sample_backing after_three_addresses after_three_addresses_reachable).2.2
    0 1 (by decide) (by decide) (by decide) (by decide)

/-! ## C10: the statistics -/

/-- C10. Statistics.  From a reachable state, with any budget of at least 17 iterations
for the scan of `add_to_tlb`, a translation returns, increments `total_addresses` by
exactly 1, and is exactly one of: a TLB hit (some slot holds the page; `tlb_hits`
incremented only), a page-table hit (no slot holds the page, the page is mapped; neither
counter incremented), a page fault (no slot holds the page, the page is unmapped;
`page_faults` incremented only).  Hence after any trace processed from the initial state
`total_addresses` is the number of addresses processed and
`tlb_hits + page_faults ≤ total_addresses`; the counters are non-negative and, for a
trace of fewer than `2^31` addresses, stay in the range of an `int`. -/
theorem statistics (backing : Int → Int) :
    (∀ s, Reachable backing s → ∀ (a : Int) (extra : Nat),
      ∃ s1 o, main_step backing (17 + extra) s a = some (s1, o) ∧
        s1.total_addresses = s.total_addresses + 1 ∧
        (((∃ i, i < 16 ∧ (s.tlb i).logical = toUInt32 (logical_page a)) ∧
            s1.tlb_hits = s.tlb_hits + 1 ∧ s1.page_faults = s.page_faults) ∨
          ((∀ i, i < 16 → (s.tlb i).logical ≠ toUInt32 (logical_page a)) ∧
            s.pagetable (logical_page a) ≠ -1 ∧
            s1.tlb_hits = s.tlb_hits ∧ s1.page_faults = s.page_faults) ∨
          ((∀ i, i < 16 → (s.tlb i).logical ≠ toUInt32 (logical_page a)) ∧
            s.pagetable (logical_page a) = -1 ∧
            s1.tlb_hits = s.tlb_hits ∧ s1.page_faults = s.page_faults + 1))) ∧
    (∀ (trace : List Int) (extra : Nat),
      ∃ s1 os, main_loop backing (17 + extra) init trace = some (s1, os) ∧
        s1.total_addresses = (trace.length : Int) ∧
        0 ≤ s1.tlb_hits ∧ 0 ≤ s1.page_faults ∧
        s1.tlb_hits + s1.page_faults ≤ s1.total_addresses ∧
        (trace.length < 2147483648 →
          s1.total_addresses < 2147483648 ∧ s1.tlb_hits < 2147483648 ∧
          s1.page_faults < 2147483648)) := by
  constructor
  · intro s hs a extra
    have hinv := reachable_inv hs
    obtain ⟨s1, o, hstep⟩ := main_step_total backing s a (17 + extra) hinv.idx (by omega)
    exact ⟨s1, o, hstep, main_step_stats hinv hstep⟩
  · intro trace extra
    obtain ⟨s1, os, hrun⟩ :=
      main_loop_total backing (17 + extra) (by omega) trace init (init_inv backing)
    have hinv1 := main_loop_inv trace init s1 os (init_inv backing) hrun
    have htot := main_loop_total_addresses trace init s1 os (init_inv backing) hrun
    have htot1 : s1.total_addresses = (trace.length : Int) := by
      rw [htot]; simp [init]
    have h1 := hinv1.hits_nonneg
    have h2 := hinv1.faults_eq
    have h3 := hinv1.stats_le
    refine ⟨s1, os, hrun, htot1, h1, by omega, h3, ?_⟩
    intro hlen
    omega

theorem statistics_witness :
    ∃ s1 o, main_step sample_backing 17 after_three_addresses 2048 = some (s1, o) ∧
      s1.total_addresses = after_three_addresses.total_addresses + 1 := by
  obtain ⟨s1, o, h1, h2, _⟩ :=
    (statistics sample_backing).1 after_three_addresses after_three_addresses_reachable 2048 0
  exact ⟨s1, o, h1, h2⟩

/-! ## The TLB after a translation -/

/-- After an iteration of the read loop some TLB slot holds the page just resolved, with
the frame the page table holds for it and reference bit 1. -/
theorem main_step_in_tlb {backing : Int → Int} {s s1 : State} {o : Output} {fuel : Nat}
    {a : Int} (h : Inv backing s) (hstep : main_step backing fuel s a = some (s1, o)) :
    ∃ i, i < 16 ∧ (s1.tlb i).logical = toUInt32 (logical_page a) ∧
      ((s1.tlb i).physical : Int) = s1.pagetable (logical_page a) ∧
      (s1.tlb i).reference = 1 := by
  obtain ⟨hp0, hp1⟩ := logical_page_range a
  have hinv1 := main_step_inv h hstep
  have hu := toUInt32_of_range (logical_page a) hp0 (by omega)
  have hphys : ∀ i, i < 16 → (s1.tlb i).logical = toUInt32 (logical_page a) →
      ((s1.tlb i).physical : Int) = s1.pagetable (logical_page a) := by
    intro i hi hl
    have hult : toUInt32 (logical_page a) < 1024 :=
      toUInt32_lt (logical_page a) 1024 hp0 hp1 (by omega)
    obtain ⟨_, hpt⟩ := hinv1.tlb_pt i hi (by omega)
    rw [hl, hu] at hpt
    exact hpt.symm
  rcases main_step_cases h hstep with
    ⟨i, hi, hm, _, _, hs1, _⟩ | ⟨_, _, hadd, _⟩ | ⟨_, _, hadd, _⟩
  · have hl : (s1.tlb i).logical = toUInt32 (logical_page a) := by
      rw [hs1]; simp only [update_reference_logical]; exact hm
    refine ⟨i, hi, hl, hphys i hi hl, ?_⟩
    rw [hs1]; simp
  · obtain ⟨t, ht, hnew, _⟩ := add_to_tlb_effect _ _ fuel _ s1 (by exact h.idx) hadd
    have hl : (s1.tlb t).logical = toUInt32 (logical_page a) := by rw [hnew]
    exact ⟨t, ht, hl, hphys t ht hl, by rw [hnew]⟩
  · obtain ⟨t, ht, hnew, _⟩ := add_to_tlb_effect _ _ fuel _ s1 (by exact h.idx) hadd
    have hl : (s1.tlb t).logical = toUInt32 (logical_page a) := by rw [hnew]
    exact ⟨t, ht, hl, hphys t ht hl, by rw [hnew]⟩

/-- A page held by a TLB slot is mapped in the page table. -/
theorem tlb_entry_mapped {backing : Int → Int} {s : State} (h : Inv backing s) (p : Int)
    (h0 : 0 ≤ p) (h1 : p < 1024) (i : Nat) (hi : i < 16)
    (hl : (s.tlb i).logical = toUInt32 p) : s.pagetable p ≠ -1 := by
  have hu := toUInt32_of_range p h0 (by omega)
  have hult : toUInt32 p < 1024 := toUInt32_lt p 1024 h0 h1 (by omega)
  obtain ⟨_, hpt⟩ := h.tlb_pt i hi (by omega)
  rw [hl, hu] at hpt
  rw [hpt]
  omega

/-- An iteration on an unmapped page is a page fault. -/
theorem main_step_fault {backing : Int → Int} {s s1 : State} {o : Output} {fuel : Nat}
    {a : Int} (h : Inv backing s) (hstep : main_step backing fuel s a = some (s1, o))
    (hun : s.pagetable (logical_page a) = -1) :
    s1.page_faults = s.page_faults + 1 ∧ s1.tlb_hits = s.tlb_hits ∧
    (∀ i, i < 16 → (s.tlb i).logical ≠ toUInt32 (logical_page a)) := by
  obtain ⟨hp0, hp1⟩ := logical_page_range a
  rcases (main_step_stats h hstep).2 with ⟨⟨i, hi, hl⟩, _⟩ | ⟨_, hc, _⟩ | ⟨hmiss, _, h3, h4⟩
  · exact absurd hun (tlb_entry_mapped h (logical_page a) hp0 hp1 i hi hl)
  · exact absurd hun hc
  · exact ⟨h4, h3, hmiss⟩

/-- An iteration on a page held by the TLB is a TLB hit. -/
theorem main_step_hit {backing : Int → Int} {s s1 : State} {o : Output} {fuel : Nat}
    {a : Int} (h : Inv backing s) (hstep : main_step backing fuel s a = some (s1, o))
    (i : Nat) (hi : i < 16) (hl : (s.tlb i).logical = toUInt32 (logical_page a)) :
    s1.tlb_hits = s.tlb_hits + 1 ∧ s1.page_faults = s.page_faults := by
  rcases (main_step_stats h hstep).2 with ⟨_, h1, h2⟩ | ⟨hmiss, _⟩ | ⟨hmiss, _⟩
  · exact ⟨h1, h2⟩
  · exact absurd hl (hmiss i hi)
  · exact absurd hl (hmiss i hi)

/-- Translating the same address again and again from a state whose TLB holds its page:
every translation is a TLB hit. -/
theorem main_loop_replicate_hits {backing : Int → Int} {fuel : Nat} (A : Int) :
    ∀ (n : Nat) (s s1 : State) (os : List Output), Inv backing s →
      (∃ i, i < 16 ∧ (s.tlb i).logical = toUInt32 (logical_page A)) →
      main_loop backing fuel s (List.replicate n A) = some (s1, os) →
      s1.tlb_hits = s.tlb_hits + (n : Int) ∧ s1.page_faults = s.page_faults := by
  intro n
  induction n with
  | zero =>
    intro s s1 os _ _ hrun
    rw [List.replicate_zero] at hrun
    rw [(main_loop_nil hrun).1]
    simp
  | succ n ih =>
    intro s s1 os hinv hin hrun
    rw [List.replicate_succ] at hrun
    obtain ⟨s2, o, os2, hstep, hrest, _⟩ := main_loop_cons hrun
    obtain ⟨i, hi, hl, _⟩ := main_step_in_tlb hinv hstep
    obtain ⟨e1, e2⟩ := ih s2 s1 os2 (main_step_inv hinv hstep) ⟨i, hi, hl⟩ hrest
    obtain ⟨j, hj, hjl⟩ := hin
    obtain ⟨h1, h2⟩ := main_step_hit hinv hstep j hj hjl
    rw [e1, e2, h1, h2]
    push_cast
    omega

theorem init_pagetable_unmapped (p : Int) (h0 : 0 ≤ p) (h1 : p < 1024) :
    init.pagetable p = -1 := by
  simp [init, PAGES, h0, h1]

/-! ## C11: a repeated address -/

/-- C11. For every address `A` and every `n ≥ 1`, the read loop run from the initial
state on the trace that repeats `A` `n` times returns with exactly 1 page fault and
`n - 1` TLB hits (and `n` translated addresses): the first access faults and inserts
the page into the TLB, no later access misses. -/
theorem repeated_address (backing : Int → Int) (A : Int) (n : Nat) (hn : 1 ≤ n)
    (extra : Nat) :
    ∃ s os, main_loop backing (17 + extra) init (List.replicate n A) = some (s, os) ∧
      s.page_faults = 1 ∧ s.tlb_hits = (n : Int) - 1 ∧ s.total_addresses = (n : Int) := by
  obtain ⟨m, rfl⟩ : ∃ m, n = m + 1 := ⟨n - 1, by omega⟩
  have hinit := init_inv backing
  obtain ⟨s, os, hrun⟩ :=
    main_loop_total backing (17 + extra) (by omega) (List.replicate (m + 1) A) init hinit
  have htot := main_loop_total_addresses _ init s os hinit hrun
  refine ⟨s, os, hrun, ?_⟩
  rw [List.replicate_succ] at hrun
  obtain ⟨s2, o, os2, hstep, hrest, _⟩ := main_loop_cons hrun
  obtain ⟨i, hi, hl, _⟩ := main_step_in_tlb hinit hstep
  obtain ⟨e1, e2⟩ :=
    main_loop_replicate_hits A m s2 s os2 (main_step_inv hinit hstep) ⟨i, hi, hl⟩ hrest
  obtain ⟨hp0, hp1⟩ := logical_page_range A
  obtain ⟨h3, h4, _⟩ :=
    main_step_fault hinit hstep (init_pagetable_unmapped (logical_page A) hp0 hp1)
  have h0 : init.tlb_hits = 0 := rfl
  have h1 : init.page_faults = 0 := rfl
  have h2 : init.total_addresses = 0 := rfl
  rw [List.length_replicate, h2] at htot
  refine ⟨?_, ?_, ?_⟩
  · rw [e2, h3, h1]; rfl
  · rw [e1, h4, h0]; push_cast; omega
  · rw [htot]; push_cast; omega

theorem repeated_address_witness :
    ∃ s os, main_loop sample_backing 17 init (List.replicate 20 0) = some (s, os) ∧
      s.page_faults = 1 ∧ s.tlb_hits = 19 ∧ s.total_addresses = 20 := by
  obtain ⟨s, os, h1, h2, h3, h4⟩ := repeated_address sample_backing 0 20 (by decide) 0
  exact ⟨s, os, h1, h2, by rw [h3]; norm_num, by rw [h4]; norm_num⟩

/-! ## C15: termination of `add_to_tlb` -/

/-- The number of slots the scan passes over: the least `k` such that the slot `k`
places after the clock pointer has reference bit zero, or 16 when no slot has. -/
theorem scan_length_exists (s : State) :
    ∃ k, k ≤ 16 ∧ (∀ j, j < k → (s.tlb ((s.tlbindex + j) % 16)).reference ≠ 0) ∧
      (k < 16 → (s.tlb ((s.tlbindex + k) % 16)).reference = 0) := by
  by_cases h : ∃ j, j < 16 ∧ (s.tlb ((s.tlbindex + j) % 16)).reference = 0
  · have hk := Nat.find_spec h
    refine ⟨Nat.find h, by omega, ?_, fun _ => hk.2⟩
    intro j hj hz
    exact Nat.find_min h hj ⟨by omega, hz⟩
  · exact ⟨16, by omega, fun j hj hz => h ⟨j, hj, hz⟩, by omega⟩

/-- C15. `add_to_tlb` terminates for every TLB state with the clock pointer in `0..15`:
its loop executes some number `n` of iterations with `1 ≤ n ≤ 17` (a budget below `n`
is used up before the call returns, every budget of at least `n`, in particular 17,
gives the same result), and it leaves the clock pointer in `0..15`. -/
theorem add_to_tlb_terminates (logical physical : Nat) (s : State) (hp : s.tlbindex < 16) :
    ∃ n s1, 1 ≤ n ∧ n ≤ 17 ∧
      (∀ m, m < n → add_to_tlb m logical physical s = none) ∧
      (∀ m, n ≤ m → add_to_tlb m logical physical s = some s1) ∧
      add_to_tlb 17 logical physical s = some s1 ∧
      s1.tlbindex < 16 := by
  obtain ⟨k, hk, hskip, hstop⟩ := scan_length_exists s
  obtain ⟨s1, hrun, _, _, _, hidx, _⟩ :=
    add_to_tlb_clock logical physical s k 0 hp hk hskip hstop
  have hfrom : ∀ m, k + 1 ≤ m → add_to_tlb m logical physical s = some s1 := by
    intro m hm
    have e : m = (k + 1 + 0) + (m - (k + 1)) := by omega
    rw [e]
    exact add_to_tlb_mono logical physical _ _ s s1 hrun
  refine ⟨k + 1, s1, by omega, by omega, ?_, hfrom, hfrom 17 (by omega), ?_⟩
  · intro m hm
    exact add_to_tlb_none logical physical m s hp (by omega)
      (fun j hj => hskip j (by omega))
  · rw [hidx]
    omega

theorem add_to_tlb_terminates_witness :
    ∃ n s1, 1 ≤ n ∧ n ≤ 17 ∧
      (∀ m, m < n → add_to_tlb m 7 9 tlb_all_referenced = none) ∧
      (∀ m, n ≤ m → add_to_tlb m 7 9 tlb_all_referenced = some s1) ∧
      add_to_tlb 17 7 9 tlb_all_referenced = some s1 ∧
      s1.tlbindex < 16 :=
  add_to_tlb_terminates 7 9 tlb_all_referenced (by decide)

/-! ## C18: the physical address -/

theorem lor_shift_eq (frame off : Int) (hf0 : 0 ≤ frame) (ho0 : 0 ≤ off) (ho1 : off < 1024) :
    Int.lor (frame <<< (OFFSET_BITS : Int)) off = frame * PAGE_SIZE + off := by
  obtain ⟨f, rfl⟩ := Int.eq_ofNat_of_zero_le hf0
  obtain ⟨r, rfl⟩ := Int.eq_ofNat_of_zero_le ho0
  have hr : r < 2 ^ 10 := by omega
  rw [OFFSET_BITS, Int.shiftLeft_eq_mul_pow, PAGE_SIZE]
  have hm : (f : Int) * ((2 ^ 10 : Nat) : Int) = ((2 ^ 10 * f : Nat) : Int) := by
    push_cast; ring
  rw [hm]
  show ((2 ^ 10 * f ||| r : Nat) : Int) = _
  rw [← Nat.mul_add_lt_is_or hr]
  push_cast
  ring

/-- C18. Physical address assembly: for every frame in `0..1023` and offset in
`0..1023`, the reported physical address `(frame << 10) | offset` equals the index
`frame*1024 + offset` used to read `main_memory`, and lies in `0..2^20-1`; so the record
of a translation carries the address of the byte it reports. -/
theorem physical_address_assembly (frame off : Int) (hf0 : 0 ≤ frame) (hf1 : frame < 1024)
    (ho0 : 0 ≤ off) (ho1 : off < 1024) :
    Int.lor (frame <<< (OFFSET_BITS : Int)) off = frame * PAGE_SIZE + off ∧
    0 ≤ frame * PAGE_SIZE + off ∧ frame * PAGE_SIZE + off < 1048576 ∧
    (∀ (s : State) (a : Int), off = offset a →
      (report s a frame).2.physical_address = frame * PAGE_SIZE + off ∧
      (report s a frame).2.value = s.main_memory (report s a frame).2.physical_address) := by
  have h := lor_shift_eq frame off hf0 ho0 ho1
  refine ⟨h, by rw [PAGE_SIZE]; omega, by rw [PAGE_SIZE]; omega, ?_⟩
  intro s a ha
  subst ha
  have e : (report s a frame).2.physical_address = frame * PAGE_SIZE + offset a := h
  exact ⟨e, by rw [e]; rfl⟩

theorem physical_address_assembly_witness :
    Int.lor ((1023 : Int) <<< (OFFSET_BITS : Int)) 1023 = 1023 * PAGE_SIZE + 1023 ∧
    (0 : Int) ≤ 1023 * PAGE_SIZE + 1023 ∧ (1023 : Int) * PAGE_SIZE + 1023 < 1048576 := by
  obtain ⟨h1, h2, h3, _⟩ :=
    physical_address_assembly 1023 1023 (by norm_num) (by norm_num) (by norm_num)
      (by norm_num)
  exact ⟨h1, h2, h3⟩

/-! ## The effect of one translation on the page table and the memory -/

/-- What an iteration of the read loop does outside the TLB.  On a mapped page it
changes neither the page table, nor the memory, nor `free_page`, nor `page_faults`.
On an unmapped page it stores `free_page` in the slot of the page, copies the page
from the backing store into that frame, and increments `free_page` and `page_faults`. -/
theorem main_step_effect {backing : Int → Int} {s s1 : State} {o : Output} {fuel : Nat}
    {a : Int} (h : Inv backing s) (hstep : main_step backing fuel s a = some (s1, o)) :
    (s.pagetable (logical_page a) ≠ -1 →
      s1.pagetable = s.pagetable ∧ s1.main_memory = s.main_memory ∧
      s1.free_page = s.free_page ∧ s1.page_faults = s.page_faults) ∧
    (s.pagetable (logical_page a) = -1 →
      s1.pagetable = Function.update s.pagetable (logical_page a) (s.free_page : Int) ∧
      s1.main_memory = memcpy s.main_memory ((s.free_page : Int) * PAGE_SIZE) backing
        (logical_page a * PAGE_SIZE) PAGE_SIZE ∧
      s1.free_page = s.free_page + 1 ∧ s1.page_faults = s.page_faults + 1) := by
  have hconv := toInt32_free_page h
  have hfp := h.free_page_le
  have hnext : (s.free_page + 1) % 4294967296 = s.free_page + 1 := Nat.mod_eq_of_lt (by omega)
  rcases main_step_cases h hstep with
    ⟨i, hi, _, hne, _, hs1, _⟩ | ⟨_, hpt, hadd, _⟩ | ⟨_, hpt, hadd, _⟩
  · refine ⟨fun _ => ?_, fun hc => absurd hc hne⟩
    rw [hs1]
    exact ⟨rfl, rfl, rfl, rfl⟩
  · obtain ⟨_, _, _, _, _, _, hpt1, hmem1, _, _, hfaults1, hfp1⟩ :=
      add_to_tlb_effect _ _ fuel _ s1 (by exact h.idx) hadd
    exact ⟨fun _ => ⟨hpt1, hmem1, hfp1, hfaults1⟩, fun hc => absurd hc hpt⟩
  · obtain ⟨_, _, _, _, _, _, hpt1, hmem1, _, _, hfaults1, hfp1⟩ :=
      add_to_tlb_effect _ _ fuel _ s1 (by exact h.idx) hadd
    refine ⟨fun hc => absurd hpt hc, fun _ => ⟨?_, ?_, ?_, ?_⟩⟩
    · rw [hpt1]; simp only [page_fault, hconv]
    · rw [hmem1]; simp only [page_fault, hconv]
    · rw [hfp1]; simp only [page_fault, hnext]
    · rw [hfaults1]; simp only [page_fault]

/-! ## C13: the page-fault branch -/

/-- The effects of the page-fault branch on the state a completed iteration leaves,
whatever the budget it completed with. -/
theorem fault_resolution_of_step (backing : Int → Int) (s : State)
    (hs : Reachable backing s) (fuel : Nat) (a : Int) (s1 : State) (o : Output)
    (hstep : main_step backing fuel s a = some (s1, o)) :
    (s.pagetable (logical_page a) ≠ -1 →
      s1.pagetable = s.pagetable ∧ s1.main_memory = s.main_memory ∧
      s1.free_page = s.free_page ∧ s1.page_faults = s.page_faults) ∧
    (s.pagetable (logical_page a) = -1 →
      s1.free_page = s.free_page + 1 ∧
      (∀ i : Int, 0 ≤ i → i < 1024 →
        s1.main_memory ((s.free_page : Int) * PAGE_SIZE + i) =
          backing (logical_page a * PAGE_SIZE + i)) ∧
      s1.pagetable (logical_page a) = (s.free_page : Int) ∧
      s1.page_faults = s.page_faults + 1 ∧
      (∀ q, q ≠ logical_page a → s1.pagetable q = s.pagetable q) ∧
      (∀ j : Int, ¬ ((s.free_page : Int) * PAGE_SIZE ≤ j ∧
          j < (s.free_page : Int) * PAGE_SIZE + PAGE_SIZE) →
        s1.main_memory j = s.main_memory j)) := by
  have hinv := reachable_inv hs
  obtain ⟨hmapped, hfault⟩ := main_step_effect hinv hstep
  refine ⟨hmapped, fun hun => ?_⟩
  obtain ⟨hpt, hmem, hfp, hfaults⟩ := hfault hun
  refine ⟨hfp, ?_, by rw [hpt, Function.update_same], hfaults, ?_, ?_⟩
  · intro i hi0 hi1
    rw [hmem]
    simp only [memcpy, PAGE_SIZE]
    have hin : (s.free_page : Int) * 1024 ≤ (s.free_page : Int) * 1024 + i ∧
        (s.free_page : Int) * 1024 + i < (s.free_page : Int) * 1024 + 1024 := by omega
    rw [if_pos hin]
    congr 1
    omega
  · intro q hq
    rw [hpt, Function.update_noteq hq]
  · intro j hj
    rw [hmem]
    simp only [memcpy]
    rw [if_neg hj]

/-- C13. Fault resolution.  From every reachable state and for every address, an
iteration of the read loop returns (with any budget of at least 17 for the scan of
`add_to_tlb`), and the fault branch runs only when `pagetable[page]` holds `-1`: on a
mapped page the page table, the memory, `free_page` and `page_faults` are left as they
are.  On an unmapped page the branch (1) uses the frame `f` = the old value of
`free_page` and increments `free_page` by 1, (2) makes `main_memory[f*1024 + i]` equal
to `backing[page*1024 + i]` for every `i` in `0..1023`, (3) sets `pagetable[page] = f`,
(4) increments `page_faults` by 1; every other page-table slot and every byte of
`main_memory` outside frame `f` is unchanged. -/
theorem fault_resolution (backing : Int → Int) (s : State) (hs : Reachable backing s)
    (a : Int) (extra : Nat) :
    ∃ s1 o, main_step backing (17 + extra) s a = some (s1, o) ∧
      (s.pagetable (logical_page a) ≠ -1 →
        s1.pagetable = s.pagetable ∧ s1.main_memory = s.main_memory ∧
        s1.free_page = s.free_page ∧ s1.page_faults = s.page_faults) ∧
      (s.pagetable (logical_page a) = -1 →
        s1.free_page = s.free_page + 1 ∧
        (∀ i : Int, 0 ≤ i → i < 1024 →
          s1.main_memory ((s.free_page : Int) * PAGE_SIZE + i) =
            backing (logical_page a * PAGE_SIZE + i)) ∧
        s1.pagetable (logical_page a) = (s.free_page : Int) ∧
        s1.page_faults = s.page_faults + 1 ∧
        (∀ q, q ≠ logical_page a → s1.pagetable q = s.pagetable q) ∧
        (∀ j : Int, ¬ ((s.free_page : Int) * PAGE_SIZE ≤ j ∧
            j < (s.free_page : Int) * PAGE_SIZE + PAGE_SIZE) →
          s1.main_memory j = s.main_memory j)) := by
  obtain ⟨s1, o, hstep⟩ :=
    main_step_total backing s a (17 + extra) (reachable_inv hs).idx (by omega)
  exact ⟨s1, o, hstep, fault_resolution_of_step backing s hs (17 + extra) a s1 o hstep⟩

theorem fault_resolution_witness :
    ∃ s1 o, main_step sample_backing 17 init 0 = some (s1, o) ∧
      s1.free_page = init.free_page + 1 ∧
      s1.pagetable (logical_page 0) = (init.free_page : Int) ∧
      s1.page_faults = init.page_faults + 1 := by
  obtain ⟨s1, o, hstep, _, hfault⟩ := fault_resolution sample_backing init Reachable.init 0 0
  obtain ⟨h1, _, h3, h4, _⟩ := hfault (by decide)
  exact ⟨s1, o, hstep, h1, h3, h4⟩

/-! ## C14: the TLB update of a translation -/

/-- The TLB after a completed iteration of the read loop, whatever the budget it
completed with. -/
theorem tlb_update_of_step (backing : Int → Int) (s : State) (hs : Reachable backing s)
    (fuel : Nat) (a : Int) (s1 : State) (o : Output)
    (hstep : main_step backing fuel s a = some (s1, o)) :
    ((∃ i, i < 16 ∧ (s.tlb i).logical = toUInt32 (logical_page a)) →
      (∀ j, (s1.tlb j).logical = (s.tlb j).logical ∧ (s1.tlb j).physical = (s.tlb j).physical) ∧
      s1.tlbindex = s.tlbindex) ∧
    ((∀ i, i < 16 → (s.tlb i).logical ≠ toUInt32 (logical_page a)) →
      (∃ s0, s0.tlb = s.tlb ∧ s0.tlbindex = s.tlbindex ∧
        add_to_tlb fuel (toUInt32 (logical_page a))
          (toUInt32 (s1.pagetable (logical_page a))) s0 = some s1) ∧
      (∃ t, t < 16 ∧
        s1.tlb t = ⟨toUInt32 (logical_page a), toUInt32 (s1.pagetable (logical_page a)), 1⟩ ∧
        ∀ j, j ≠ t → (s1.tlb j).logical = (s.tlb j).logical ∧
          (s1.tlb j).physical = (s.tlb j).physical)) ∧
    (∃ i, i < 16 ∧ (s1.tlb i).logical = toUInt32 (logical_page a) ∧
      ((s1.tlb i).physical : Int) = s1.pagetable (logical_page a) ∧
      (s1.tlb i).reference = 1 ∧
      o = (report s1 a (s1.pagetable (logical_page a))).2) := by
  have hinv := reachable_inv hs
  obtain ⟨f, _, hpt, ho, _⟩ := main_step_resolved hinv hstep
  refine ⟨?_, ?_, ?_⟩
  · rintro ⟨i, hi, hl⟩
    rcases main_step_cases hinv hstep with
      ⟨j, _, _, _, _, hs1, _⟩ | ⟨hmiss, _⟩ | ⟨hmiss, _⟩
    · rw [hs1]
      exact ⟨fun k => ⟨update_reference_logical _ _ _ _, update_reference_physical _ _ _ _⟩,
        rfl⟩
    · exact absurd hl (hmiss i hi)
    · exact absurd hl (hmiss i hi)
  · intro hmiss
    obtain ⟨hp0, hp1⟩ := logical_page_range a
    have key : ∀ (s0 : State) (fr : Int),
        add_to_tlb fuel (toUInt32 (logical_page a)) (toUInt32 fr) s0 = some s1 →
        s0.tlb = s.tlb → s0.tlbindex = s.tlbindex →
        fr = s1.pagetable (logical_page a) →
        (∃ s0, s0.tlb = s.tlb ∧ s0.tlbindex = s.tlbindex ∧
          add_to_tlb fuel (toUInt32 (logical_page a))
            (toUInt32 (s1.pagetable (logical_page a))) s0 = some s1) ∧
        (∃ t, t < 16 ∧
          s1.tlb t = ⟨toUInt32 (logical_page a), toUInt32 (s1.pagetable (logical_page a)), 1⟩ ∧
          ∀ j, j ≠ t → (s1.tlb j).logical = (s.tlb j).logical ∧
            (s1.tlb j).physical = (s.tlb j).physical) := by
      intro s0 fr hadd h1 h2 h3
      subst h3
      obtain ⟨t, ht, hnew, hothers, _⟩ :=
        add_to_tlb_effect _ _ fuel s0 s1 (by rw [h2]; exact hinv.idx) hadd
      refine ⟨⟨s0, h1, h2, hadd⟩, t, ht, hnew, ?_⟩
      intro j hj
      obtain ⟨e1, e2, _⟩ := hothers j hj
      rw [h1] at e1 e2
      exact ⟨e1, e2⟩
    rcases main_step_cases hinv hstep with
      ⟨i, hi, hl, _⟩ | ⟨_, _, hadd, ho2⟩ | ⟨_, _, hadd, ho2⟩
    · exact absurd hl (hmiss i hi)
    · refine key _ _ hadd rfl rfl ?_
      obtain ⟨_, _, _, _, _, _, hpt1, _⟩ :=
        add_to_tlb_effect _ _ fuel _ s1 (by exact hinv.idx) hadd
      rw [hpt1]
    · refine key _ _ hadd rfl rfl ?_
      obtain ⟨_, _, _, _, _, _, hpt1, _⟩ :=
        add_to_tlb_effect _ _ fuel _ s1 (by exact hinv.idx) hadd
      rw [hpt1]
      simp [page_fault]
  · obtain ⟨i, hi, hl, hph, href⟩ := main_step_in_tlb hinv hstep
    exact ⟨i, hi, hl, hph, href, by rw [hpt]; exact ho⟩

/-- C14. TLB update per translation.  From every reachable state and for every address,
an iteration of the read loop returns (with any budget of at least 17 for the scan of
`add_to_tlb`).  On a TLB hit no insertion is performed: every page/frame pair and the
clock pointer are unchanged.  On a TLB miss, whether resolved by the page table or by a
page fault, the state left is the result of exactly one call of `add_to_tlb`, with key
the page just resolved and value its frame, on a state with the TLB and clock pointer of
before: one slot receives the new entry and every other slot keeps its page and frame.
In every case, right after the translation some TLB slot holds the page just resolved
with the frame that was used for the record and reference bit 1. -/
theorem tlb_update (backing : Int → Int) (s : State) (hs : Reachable backing s)
    (a : Int) (extra : Nat) :
    ∃ s1 o, main_step backing (17 + extra) s a = some (s1, o) ∧
      ((∃ i, i < 16 ∧ (s.tlb i).logical = toUInt32 (logical_page a)) →
        (∀ j, (s1.tlb j).logical = (s.tlb j).logical ∧
          (s1.tlb j).physical = (s.tlb j).physical) ∧
        s1.tlbindex = s.tlbindex) ∧
      ((∀ i, i < 16 → (s.tlb i).logical ≠ toUInt32 (logical_page a)) →
        (∃ s0, s0.tlb = s.tlb ∧ s0.tlbindex = s.tlbindex ∧
          add_to_tlb (17 + extra) (toUInt32 (logical_page a))
            (toUInt32 (s1.pagetable (logical_page a))) s0 = some s1) ∧
        (∃ t, t < 16 ∧
          s1.tlb t =
            ⟨toUInt32 (logical_page a), toUInt32 (s1.pagetable (logical_page a)), 1⟩ ∧
          ∀ j, j ≠ t → (s1.tlb j).logical = (s.tlb j).logical ∧
            (s1.tlb j).physical = (s.tlb j).physical)) ∧
      (∃ i, i < 16 ∧ (s1.tlb i).logical = toUInt32 (logical_page a) ∧
        ((s1.tlb i).physical : Int) = s1.pagetable (logical_page a) ∧
        (s1.tlb i).reference = 1 ∧
        o = (report s1 a (s1.pagetable (logical_page a))).2) := by
  obtain ⟨s1, o, hstep⟩ :=
    main_step_total backing s a (17 + extra) (reachable_inv hs).idx (by omega)
  exact ⟨s1, o, hstep, tlb_update_of_step backing s hs (17 + extra) a s1 o hstep⟩

theorem tlb_update_witness :
    ∃ s1 o, main_step sample_backing 17 init 0 = some (s1, o) ∧
      ∃ i, i < 16 ∧ (s1.tlb i).logical = toUInt32 (logical_page 0) ∧
        ((s1.tlb i).physical : Int) = s1.pagetable (logical_page 0) ∧
        (s1.tlb i).reference = 1 := by
  obtain ⟨s1, o, hstep, _, _, i, hi, h1, h2, h3, _⟩ :=
    tlb_update sample_backing init Reachable.init 0 0
  exact ⟨s1, o, hstep, i, hi, h1, h2, h3⟩

/-! ## The distinct pages of a trace -/

theorem first_refs_nodup :
    ∀ (trace : List Int) (seen : List Int), seen.Nodup → (first_refs seen trace).Nodup := by
  intro trace
  induction trace with
  | nil => intro seen h; exact h
  | cons a rest ih =>
    intro seen h
    simp only [first_refs]
    split
    · exact ih seen h
    · rename_i hn
      apply ih
      rw [List.nodup_append]
      refine ⟨h, List.nodup_singleton _, ?_⟩
      intro x hx hy
      rw [List.mem_singleton] at hy
      subst hy
      exact hn hx

theorem mem_first_refs :
    ∀ (trace : List Int) (seen : List Int) (p : Int),
      p ∈ first_refs seen trace ↔ p ∈ seen ∨ p ∈ trace.map logical_page := by
  intro trace
  induction trace with
  | nil => intro seen p; simp [first_refs]
  | cons a rest ih =>
    intro seen p
    simp only [first_refs]
    split
    · rename_i hin
      rw [ih, List.map_cons, List.mem_cons]
      constructor
      · rintro (h | h)
        · exact Or.inl h
        · exact Or.inr (Or.inr h)
      · rintro (h | h | h)
        · exact Or.inl h
        · exact Or.inl (h ▸ hin)
        · exact Or.inr h
    · rw [ih, List.map_cons, List.mem_cons, List.mem_append, List.mem_singleton]
      tauto

theorem distinct_pages_nodup (trace : List Int) : (distinct_pages trace).Nodup :=
  first_refs_nodup trace [] List.nodup_nil

theorem mem_distinct_pages (trace : List Int) (p : Int) :
    p ∈ distinct_pages trace ↔ p ∈ trace.map logical_page := by
  unfold distinct_pages
  rw [mem_first_refs]
  simp

/-- The list of distinct pages has as many elements as the trace has distinct pages. -/
theorem distinct_pages_length (trace : List Int) :
    (distinct_pages trace).length = (trace.map logical_page).toFinset.card := by
  rw [← List.toFinset_card_of_nodup (distinct_pages_nodup trace)]
  congr 1
  ext p
  rw [List.mem_toFinset, List.mem_toFinset, mem_distinct_pages]

theorem init_frames_in_order : FramesInOrder init [] where
  nodup := List.nodup_nil
  len := rfl
  frame := by intro i p h; simp at h
  mapped := by
    intro p h0 h1 hne
    exact absurd (init_pagetable_unmapped p h0 h1) hne

/-- One iteration of the read loop: a page referenced before keeps the list of mapped
pages, a new page is added at its end. -/
theorem main_step_frames_in_order {backing : Int → Int} {s s1 : State} {o : Output}
    {fuel : Nat} {a : Int} {seen : List Int} (h : Inv backing s) (hord : FramesInOrder s seen)
    (hstep : main_step backing fuel s a = some (s1, o)) :
    (logical_page a ∈ seen → s.pagetable (logical_page a) ≠ -1 ∧ FramesInOrder s1 seen) ∧
    (logical_page a ∉ seen → s.pagetable (logical_page a) = -1 ∧
      FramesInOrder s1 (seen ++ [logical_page a])) := by
  obtain ⟨hp0, hp1⟩ := logical_page_range a
  obtain ⟨hmapped, hfault⟩ := main_step_effect h hstep
  constructor
  · intro hin
    obtain ⟨i, hi⟩ := List.mem_iff_getElem?.1 hin
    obtain ⟨_, _, hf⟩ := hord.frame i _ hi
    have hne : s.pagetable (logical_page a) ≠ -1 := by rw [hf]; omega
    obtain ⟨hpt, _, hfp, _⟩ := hmapped hne
    refine ⟨hne, hord.nodup, by rw [hfp]; exact hord.len, ?_, ?_⟩
    · rw [hpt]; exact hord.frame
    · rw [hpt]; exact hord.mapped
  · intro hnin
    have hun : s.pagetable (logical_page a) = -1 := by
      by_contra hne
      exact hnin (hord.mapped _ hp0 hp1 hne)
    obtain ⟨hpt, _, hfp, _⟩ := hfault hun
    refine ⟨hun, ?_, ?_, ?_, ?_⟩
    · rw [List.nodup_append]
      refine ⟨hord.nodup, List.nodup_singleton _, ?_⟩
      intro x hx hy
      rw [List.mem_singleton] at hy
      subst hy
      exact hnin hx
    · rw [List.length_append, List.length_singleton, hfp, hord.len]
    · intro i p hi
      rw [hpt]
      by_cases hlt : i < seen.length
      · rw [List.getElem?_append_left hlt] at hi
        obtain ⟨h0, h1, hf⟩ := hord.frame i p hi
        have hne : p ≠ logical_page a := by
          intro e
          exact hnin (e ▸ List.mem_iff_getElem?.2 ⟨i, hi⟩)
        exact ⟨h0, h1, by rw [Function.update_noteq hne]; exact hf⟩
      · rw [List.getElem?_append_right (by omega)] at hi
        have hi0 : i - seen.length = 0 := by
          by_contra hne
          rw [List.getElem?_eq_none (by simp; omega)] at hi
          exact absurd hi (by simp)
        rw [hi0] at hi
        simp only [List.getElem?_cons_zero, Option.some.injEq] at hi
        subst hi
        refine ⟨hp0, hp1, ?_⟩
        rw [Function.update_same]
        have := hord.len
        have e : i = seen.length := by omega
        rw [e, this]
    · intro p h0 h1 hne
      rw [hpt] at hne
      by_cases hp : p = logical_page a
      · rw [hp]; simp
      · rw [Function.update_noteq hp] at hne
        exact List.mem_append_left _ (hord.mapped p h0 h1 hne)

/-- After a run of the read loop the mapped pages are the pages referenced, in order of
first reference, each mapped to its position. -/
theorem main_loop_frames_in_order {backing : Int → Int} {fuel : Nat} :
    ∀ (trace : List Int) (s s1 : State) (os : List Output) (seen : List Int),
      Inv backing s → FramesInOrder s seen →
      main_loop backing fuel s trace = some (s1, os) →
      FramesInOrder s1 (first_refs seen trace) := by
  intro trace
  induction trace with
  | nil =>
    intro s s1 os seen _ hord hrun
    rw [(main_loop_nil hrun).1]
    exact hord
  | cons a rest ih =>
    intro s s1 os seen hinv hord hrun
    obtain ⟨s2, o, os2, hstep, hrest, _⟩ := main_loop_cons hrun
    obtain ⟨hin, hnin⟩ := main_step_frames_in_order hinv hord hstep
    simp only [first_refs]
    split
    · rename_i hmem
      exact ih s2 s1 os2 seen (main_step_inv hinv hstep) (hin hmem).2 hrest
    · rename_i hmem
      exact ih s2 s1 os2 _ (main_step_inv hinv hstep) (hnin hmem).2 hrest

/-- The run of the read loop from the initial state, with what is known of its final
state: the invariant and the order of the mapped pages. -/
theorem main_loop_from_init (backing : Int → Int) (trace : List Int) (extra : Nat) :
    ∃ s os, main_loop backing (17 + extra) init trace = some (s, os) ∧
      Inv backing s ∧ FramesInOrder s (distinct_pages trace) := by
  obtain ⟨s, os, hrun⟩ :=
    main_loop_total backing (17 + extra) (by omega) trace init (init_inv backing)
  exact ⟨s, os, hrun, main_loop_inv trace init s os (init_inv backing) hrun,
    main_loop_frames_in_order trace init s os [] (init_inv backing) init_frames_in_order hrun⟩

/-! ## C12: no frame exhaustion -/

/-- C12. Frame exhaustion cannot occur.  After any trace processed from the initial
state, `free_page` is at most the number of distinct logical pages referenced so far,
which is at most 1024.  In the next translation, whatever the address, the frame used is
in `0..1023` and the index `frame*1024 + offset` of the byte read lies inside the
1,048,576 bytes of `main_memory`; if the translation is a page fault, the frame handed
out is the old `free_page`, it is below 1024, and the destination range of the `memcpy`,
`frame*1024 .. frame*1024 + 1023`, lies inside `main_memory`. -/
theorem no_frame_exhaustion (backing : Int → Int) (trace : List Int) (a : Int)
    (extra : Nat) :
    ∃ s os s1 o, main_loop backing (17 + extra) init trace = some (s, os) ∧
      main_step backing (17 + extra) s a = some (s1, o) ∧
      s.free_page ≤ (trace.map logical_page).toFinset.card ∧
      (trace.map logical_page).toFinset.card ≤ 1024 ∧
      o = (report s1 a (s1.pagetable (logical_page a))).2 ∧
      0 ≤ s1.pagetable (logical_page a) ∧ s1.pagetable (logical_page a) < 1024 ∧
      0 ≤ s1.pagetable (logical_page a) * PAGE_SIZE + offset a ∧
      s1.pagetable (logical_page a) * PAGE_SIZE + offset a < MEMORY_SIZE ∧
      (s.pagetable (logical_page a) = -1 →
        s1.pagetable (logical_page a) = (s.free_page : Int) ∧
        s1.main_memory = memcpy s.main_memory ((s.free_page : Int) * PAGE_SIZE) backing
          (logical_page a * PAGE_SIZE) PAGE_SIZE ∧
        s.free_page < 1024 ∧
        0 ≤ (s.free_page : Int) * PAGE_SIZE ∧
        (s.free_page : Int) * PAGE_SIZE + 1023 < MEMORY_SIZE) := by
  obtain ⟨s, os, hrun, hinv, hord⟩ := main_loop_from_init backing trace extra
  obtain ⟨s1, o, hstep⟩ := main_step_total backing s a (17 + extra) hinv.idx (by omega)
  have hinv1 := main_step_inv hinv hstep
  have hlen : s.free_page = (trace.map logical_page).toFinset.card := by
    rw [← hord.len, distinct_pages_length]
  have hfp := hinv.free_page_le
  have hfp1 := hinv1.free_page_le
  obtain ⟨hp0, hp1⟩ := logical_page_range a
  obtain ⟨ho0, ho1⟩ := offset_range a
  obtain ⟨f, hf, hpt, ho, _⟩ := main_step_resolved hinv hstep
  have hrange : 0 ≤ s1.pagetable (logical_page a) ∧ s1.pagetable (logical_page a) < 1024 := by
    rcases hinv1.pt_range (logical_page a) hp0 hp1 with hneg | ⟨h0, h1⟩
    · rw [hpt] at hneg
      exact absurd hneg hf
    · omega
  refine ⟨s, os, s1, o, hrun, hstep, by omega, by omega, by rw [hpt]; exact ho, hrange.1,
    hrange.2, ?_, ?_, ?_⟩
  · rw [PAGE_SIZE]; omega
  · simp only [PAGE_SIZE, MEMORY_SIZE, PAGES]; omega
  · intro hun
    obtain ⟨hpt1, hmem1, hfp2, _⟩ := (main_step_effect hinv hstep).2 hun
    refine ⟨by rw [hpt1, Function.update_same], hmem1, by omega, ?_, ?_⟩
    · rw [PAGE_SIZE]; omega
    · simp only [PAGE_SIZE, MEMORY_SIZE, PAGES]; omega

/-! ## C17: frames are handed out in order -/

/-- C17. Frames are assigned monotonically and never reused.  After any trace processed
from the initial state, the distinct logical pages of the trace, taken in order of
first reference, are mapped to the frames 0, 1, 2, ... in that order (the page at
position `i`, counted from 0, has frame `i`); `free_page` is their number; the mapped
frames are exactly `0..free_page-1`; and no two logical pages are mapped to the same
frame. -/
theorem frames_in_order (backing : Int → Int) (trace : List Int) (extra : Nat) :
    ∃ s os, main_loop backing (17 + extra) init trace = some (s, os) ∧
      (∀ (i : Nat) (p : Int), (distinct_pages trace)[i]? = some p →
        s.pagetable p = (i : Int)) ∧
      s.free_page = (distinct_pages trace).length ∧
      (distinct_pages trace).Nodup ∧
      (∀ p, p ∈ distinct_pages trace ↔ p ∈ trace.map logical_page) ∧
      (∀ p : Int, 0 ≤ p → p < 1024 → s.pagetable p ≠ -1 →
        0 ≤ s.pagetable p ∧ s.pagetable p < (s.free_page : Int)) ∧
      (∀ f : Nat, f < s.free_page →
        ∃ p : Int, 0 ≤ p ∧ p < 1024 ∧ s.pagetable p = (f : Int)) ∧
      (∀ p q : Int, 0 ≤ p → p < 1024 → 0 ≤ q → q < 1024 →
        s.pagetable p ≠ -1 → s.pagetable p = s.pagetable q → p = q) := by
  obtain ⟨s, os, hrun, hinv, hord⟩ := main_loop_from_init backing trace extra
  refine ⟨s, os, hrun, fun i p hi => (hord.frame i p hi).2.2, hord.len.symm,
    distinct_pages_nodup trace, mem_distinct_pages trace, ?_, hinv.pt_onto, hinv.pt_inj⟩
  intro p h0 h1 hne
  rcases hinv.pt_range p h0 h1 with hneg | hr
  · exact absurd hneg hne
  · exact hr

/-! ## C19: the number of page faults -/

/-- C19. After any trace processed from the initial state, `page_faults` equals the
number of distinct logical page numbers occurring in the trace and equals `free_page`.
Each page faults exactly once, on its first reference: the next translation is a page
fault if its page does not occur in the trace so far and is not one if it does. -/
theorem page_faults_count (backing : Int → Int) (trace : List Int) (a : Int) (extra : Nat) :
    ∃ s os s1 o, main_loop backing (17 + extra) init trace = some (s, os) ∧
      main_step backing (17 + extra) s a = some (s1, o) ∧
      s.page_faults = ((trace.map logical_page).toFinset.card : Int) ∧
      s.page_faults = (s.free_page : Int) ∧
      (logical_page a ∉ trace.map logical_page →
        s.pagetable (logical_page a) = -1 ∧ s1.page_faults = s.page_faults + 1) ∧
      (logical_page a ∈ trace.map logical_page →
        s.pagetable (logical_page a) ≠ -1 ∧ s1.page_faults = s.page_faults) := by
  obtain ⟨s, os, hrun, hinv, hord⟩ := main_loop_from_init backing trace extra
  obtain ⟨s1, o, hstep⟩ := main_step_total backing s a (17 + extra) hinv.idx (by omega)
  have hlen : s.free_page = (trace.map logical_page).toFinset.card := by
    rw [← hord.len, distinct_pages_length]
  obtain ⟨hin, hnin⟩ := main_step_frames_in_order hinv hord hstep
  obtain ⟨hmapped, hfault⟩ := main_step_effect hinv hstep
  refine ⟨s, os, s1, o, hrun, hstep, by rw [hinv.faults_eq, hlen], hinv.faults_eq, ?_, ?_⟩
  · intro hnew
    have hun := (hnin (fun hc => hnew ((mem_distinct_pages trace _).1 hc))).1
    exact ⟨hun, (hfault hun).2.2.2⟩
  · intro hold
    have hne := (hin ((mem_distinct_pages trace _).2 hold)).1
    exact ⟨hne, (hmapped hne).2.2.2⟩

/-! ## The TLB while at most sixteen pages are referenced -/

theorem init_tlb_mirrors : TlbMirrors init [] where
  len := by simp
  slot := by intro i p h; simp at h
  unused := by
    intro i _ hi
    simp [init, TLB_SIZE, hi, toUInt32_neg_one]
  pointer := rfl

theorem toUInt32_natCast (n : Nat) (h : n < 4294967296) : toUInt32 (n : Int) = n := by
  have := toUInt32_of_range (n : Int) (by omega) (by omega)
  omega

/-- One iteration of the read loop while the TLB mirrors the mapped pages.  A page
referenced before is found in the TLB: the iteration is a TLB hit and the TLB keeps
mirroring the same list.  A new page, when fewer than 16 are mapped, takes a page fault
and goes into the first unused slot.  In both cases every slot in use keeps its page
and frame. -/
theorem main_step_tlb_mirrors {backing : Int → Int} {s s1 : State} {o : Output}
    {fuel : Nat} {a : Int} {seen : List Int} (h : Inv backing s)
    (hord : FramesInOrder s seen) (hmir : TlbMirrors s seen)
    (hstep : main_step backing fuel s a = some (s1, o)) :
    (∀ i, i < 16 → (s.tlb i).logical ≠ 4294967295 → seen.length < 16 ∨ logical_page a ∈ seen →
      (s1.tlb i).logical = (s.tlb i).logical ∧ (s1.tlb i).physical = (s.tlb i).physical) ∧
    (logical_page a ∈ seen →
      TlbMirrors s1 seen ∧ (∃ i, i < 16 ∧ (s.tlb i).logical = toUInt32 (logical_page a)) ∧
      s1.tlb_hits = s.tlb_hits + 1 ∧ s1.page_faults = s.page_faults) ∧
    (logical_page a ∉ seen → seen.length < 16 →
      TlbMirrors s1 (seen ++ [logical_page a]) ∧ s.pagetable (logical_page a) = -1 ∧
      s1.tlb_hits = s.tlb_hits ∧ s1.page_faults = s.page_faults + 1) := by
  obtain ⟨hp0, hp1⟩ := logical_page_range a
  have hult : toUInt32 (logical_page a) < 1024 :=
    toUInt32_lt (logical_page a) 1024 hp0 hp1 (by omega)
  have hfp := h.free_page_le
  have hA : logical_page a ∈ seen →
      (∀ i, (s1.tlb i).logical = (s.tlb i).logical ∧ (s1.tlb i).physical = (s.tlb i).physical) ∧
      TlbMirrors s1 seen ∧ (∃ i, i < 16 ∧ (s.tlb i).logical = toUInt32 (logical_page a)) ∧
      s1.tlb_hits = s.tlb_hits + 1 ∧ s1.page_faults = s.page_faults := by
    intro hin
    obtain ⟨i, hi⟩ := List.mem_iff_getElem?.1 hin
    have hilt : i < seen.length := by
      by_contra hc
      rw [List.getElem?_eq_none (by omega)] at hi
      exact absurd hi (by simp)
    have hi16 : i < 16 := by have := hmir.len; omega
    obtain ⟨hl, _⟩ := hmir.slot i _ hi
    rcases main_step_cases h hstep with
      ⟨j, hj, hjl, _, _, hs1, _⟩ | ⟨hmiss, _⟩ | ⟨hmiss, _⟩
    · have hkeep : ∀ k, (s1.tlb k).logical = (s.tlb k).logical ∧
          (s1.tlb k).physical = (s.tlb k).physical := by
        intro k
        rw [hs1]
        exact ⟨update_reference_logical _ _ _ _, update_reference_physical _ _ _ _⟩
      refine ⟨hkeep, ⟨hmir.len, ?_, ?_, ?_⟩, ⟨i, hi16, hl⟩, by rw [hs1], by rw [hs1]⟩
      · intro k p hk
        rw [(hkeep k).1, (hkeep k).2]
        exact hmir.slot k p hk
      · intro k hk hk16
        have hjk : k ≠ j := by
          intro e
          have hu := hmir.unused k hk hk16
          rw [e] at hu
          rw [hu] at hjl
          simp only at hjl
          omega
        rw [hs1]
        simp only [Function.update_noteq hjk]
        exact hmir.unused k hk hk16
      · rw [hs1]
        exact hmir.pointer
    · exact absurd hl (hmiss i hi16)
    · exact absurd hl (hmiss i hi16)
  have hC : logical_page a ∉ seen → seen.length < 16 →
      (∀ i, i < 16 → (s.tlb i).logical ≠ 4294967295 →
        (s1.tlb i).logical = (s.tlb i).logical ∧ (s1.tlb i).physical = (s.tlb i).physical) ∧
      TlbMirrors s1 (seen ++ [logical_page a]) ∧ s.pagetable (logical_page a) = -1 ∧
      s1.tlb_hits = s.tlb_hits ∧ s1.page_faults = s.page_faults + 1 := by
    intro hnin hlen
    have hun : s.pagetable (logical_page a) = -1 := by
      by_contra hne
      exact hnin (hord.mapped _ hp0 hp1 hne)
    obtain ⟨hfaults, hhits, _⟩ := main_step_fault h hstep hun
    have hidx : s.tlbindex = seen.length := by
      rw [hmir.pointer]; omega
    have hslot := hmir.unused seen.length (Nat.le_refl _) hlen
    rcases main_step_cases h hstep with
      ⟨_, _, _, hne, _⟩ | ⟨_, hne, _⟩ | ⟨_, _, hadd, _⟩
    · exact absurd hun hne
    · exact absurd hun hne
    · cases fuel with
      | zero => simp [add_to_tlb] at hadd
      | succ fuel =>
        rw [add_to_tlb_succ_place _ _ _ _ (by
          show (s.tlb s.tlbindex).reference = 0
          rw [hidx, hslot])] at hadd
        simp only [Option.some.injEq] at hadd
        have htlb : s1.tlb = Function.update s.tlb seen.length
            ⟨toUInt32 (logical_page a), toUInt32 (toInt32 s.free_page), 1⟩ := by
          rw [← hadd]
          show Function.update s.tlb s.tlbindex _ = _
          rw [hidx]
        have hptr : s1.tlbindex = (seen.length + 1) % 16 := by
          rw [← hadd]
          show (s.tlbindex + 1) % TLB_SIZE = _
          rw [hidx, TLB_SIZE]
        have hphys : toUInt32 (toInt32 s.free_page) = seen.length := by
          rw [toInt32_free_page h, toUInt32_natCast _ (by omega), hord.len]
        refine ⟨?_, ⟨?_, ?_, ?_, ?_⟩, hun, hhits, hfaults⟩
        · intro i hi hne
          have hil : i ≠ seen.length := by
            intro e
            rw [e, hslot] at hne
            exact hne rfl
          rw [htlb, Function.update_noteq hil]
          exact ⟨rfl, rfl⟩
        · rw [List.length_append, List.length_singleton]; omega
        · intro i p hi
          rw [htlb]
          by_cases hlt : i < seen.length
          · rw [List.getElem?_append_left hlt] at hi
            rw [Function.update_noteq (by omega)]
            exact hmir.slot i p hi
          · rw [List.getElem?_append_right (by omega)] at hi
            have hi0 : i - seen.length = 0 := by
              by_contra hne
              rw [List.getElem?_eq_none (by simp; omega)] at hi
              exact absurd hi (by simp)
            rw [hi0] at hi
            simp only [List.getElem?_cons_zero, Option.some.injEq] at hi
            subst hi
            have e : i = seen.length := by omega
            rw [e, Function.update_same]
            exact ⟨rfl, hphys⟩
        · intro i hi hi16
          rw [List.length_append, List.length_singleton] at hi
          rw [htlb, Function.update_noteq (by omega)]
          exact hmir.unused i (by omega) hi16
        · rw [hptr, List.length_append, List.length_singleton]
  refine ⟨?_, fun hin => (hA hin).2, fun hnin hlen => (hC hnin hlen).2⟩
  intro i hi hne hcase
  by_cases hin : logical_page a ∈ seen
  · exact (hA hin).1 i
  · rcases hcase with hlen | hc
    · exact (hC hin hlen).1 i hi hne
    · exact absurd hc hin

theorem first_refs_length_le :
    ∀ (trace : List Int) (seen : List Int), seen.length ≤ (first_refs seen trace).length := by
  intro trace
  induction trace with
  | nil => intro seen; exact Nat.le_refl _
  | cons a rest ih =>
    intro seen
    simp only [first_refs]
    split
    · exact ih seen
    · have := ih (seen ++ [logical_page a])
      rw [List.length_append, List.length_singleton] at this
      omega

theorem first_refs_append :
    ∀ (t1 t2 : List Int) (seen : List Int),
      first_refs seen (t1 ++ t2) = first_refs (first_refs seen t1) t2 := by
  intro t1
  induction t1 with
  | nil => intro t2 seen; rfl
  | cons a rest ih =>
    intro t2 seen
    simp only [List.cons_append, first_refs]
    split
    · exact ih t2 seen
    · exact ih t2 _

/-- A run of the read loop during which at most sixteen pages are mapped: the TLB
mirrors the mapped pages all along, and every translation is a TLB hit or a page
fault. -/
theorem main_loop_tlb_mirrors {backing : Int → Int} {fuel : Nat} :
    ∀ (trace : List Int) (s s1 : State) (os : List Output) (seen : List Int),
      Inv backing s → FramesInOrder s seen → TlbMirrors s seen →
      (first_refs seen trace).length ≤ 16 →
      main_loop backing fuel s trace = some (s1, os) →
      TlbMirrors s1 (first_refs seen trace) ∧
      s1.tlb_hits + s1.page_faults - s1.total_addresses =
        s.tlb_hits + s.page_faults - s.total_addresses := by
  intro trace
  induction trace with
  | nil =>
    intro s s1 os seen _ _ hmir _ hrun
    rw [(main_loop_nil hrun).1]
    exact ⟨hmir, rfl⟩
  | cons a rest ih =>
    intro s s1 os seen hinv hord hmir hlen hrun
    obtain ⟨s2, o, os2, hstep, hrest, _⟩ := main_loop_cons hrun
    obtain ⟨hin, hnin⟩ := main_step_frames_in_order hinv hord hstep
    obtain ⟨_, hhit, hfault⟩ := main_step_tlb_mirrors hinv hord hmir hstep
    have htot := (main_step_stats hinv hstep).1
    have hinv2 := main_step_inv hinv hstep
    simp only [first_refs] at hlen ⊢
    split at hlen
    · rename_i hmem
      rw [if_pos hmem]
      obtain ⟨hmir2, h1, h2, h3⟩ := hhit hmem
      obtain ⟨r1, r2⟩ := ih s2 s1 os2 seen hinv2 (hin hmem).2 hmir2 hlen hrest
      exact ⟨r1, by rw [r2, h2, h3, htot]; omega⟩
    · rename_i hmem
      rw [if_neg hmem]
      have hlt : seen.length < 16 := by
        have := first_refs_length_le rest (seen ++ [logical_page a])
        rw [List.length_append, List.length_singleton] at this
        omega
      obtain ⟨hmir2, _, h2, h3⟩ := hfault hmem hlt
      obtain ⟨r1, r2⟩ := ih s2 s1 os2 _ hinv2 (hnin hmem).2 hmir2 hlen hrest
      exact ⟨r1, by rw [r2, h2, h3, htot]; omega⟩

theorem card_pages_prefix (pre post : List Int) (a : Int) :
    ((pre ++ [a]).map logical_page).toFinset.card ≤
      ((pre ++ a :: post).map logical_page).toFinset.card := by
  apply Finset.card_le_card
  intro p hp
  rw [List.mem_toFinset, List.mem_map] at hp ⊢
  obtain ⟨x, hx, hxp⟩ := hp
  refine ⟨x, ?_, hxp⟩
  rw [List.mem_append] at hx ⊢
  rcases hx with hx | hx
  · exact Or.inl hx
  · rw [List.mem_singleton] at hx
    exact Or.inr (by rw [hx]; exact List.mem_cons_self _ _)

/-! ## C20: no eviction within the capacity of the TLB -/

/-- C20. No eviction within TLB capacity.  For every trace that references at most 16
distinct logical pages, processed from the initial state: the run returns with
`page_faults` the number of distinct pages, `tlb_hits = total_addresses - ` that number
and no page-table hit (`tlb_hits + page_faults = total_addresses`); at the end the page
at position `i` in order of first reference sits in TLB slot `i` with frame `i`; and at
every step of the run no TLB entry holding a page is overwritten, an access to a page
referenced before is a TLB hit, and an access to a new page is a page fault. -/
theorem no_eviction (backing : Int → Int) (trace : List Int) (extra : Nat)
    (hd : (trace.map logical_page).toFinset.card ≤ 16) :
    ∃ s os, main_loop backing (17 + extra) init trace = some (s, os) ∧
      s.total_addresses = (trace.length : Int) ∧
      s.page_faults = ((trace.map logical_page).toFinset.card : Int) ∧
      s.tlb_hits = (trace.length : Int) - ((trace.map logical_page).toFinset.card : Int) ∧
      s.tlb_hits + s.page_faults = s.total_addresses ∧
      (∀ (i : Nat) (p : Int), (distinct_pages trace)[i]? = some p →
        (s.tlb i).logical = toUInt32 p ∧ (s.tlb i).physical = i) ∧
      (∀ (pre : List Int) (a : Int) (post : List Int), trace = pre ++ a :: post →
        ∃ s0 os0 s1 o, main_loop backing (17 + extra) init pre = some (s0, os0) ∧
          main_step backing (17 + extra) s0 a = some (s1, o) ∧
          (∀ i, i < 16 → (s0.tlb i).logical ≠ toUInt32 (-1) →
            (s1.tlb i).logical = (s0.tlb i).logical ∧
            (s1.tlb i).physical = (s0.tlb i).physical) ∧
          (logical_page a ∈ pre.map logical_page →
            (∃ i, i < 16 ∧ (s0.tlb i).logical = toUInt32 (logical_page a)) ∧
            s1.tlb_hits = s0.tlb_hits + 1 ∧ s1.page_faults = s0.page_faults) ∧
          (logical_page a ∉ pre.map logical_page →
            s0.pagetable (logical_page a) = -1 ∧
            s1.page_faults = s0.page_faults + 1 ∧ s1.tlb_hits = s0.tlb_hits)) := by
  have hmirror : ∀ (t : List Int), (t.map logical_page).toFinset.card ≤ 16 →
      ∃ s os, main_loop backing (17 + extra) init t = some (s, os) ∧ Inv backing s ∧
        FramesInOrder s (distinct_pages t) ∧ TlbMirrors s (distinct_pages t) ∧
        s.tlb_hits + s.page_faults = s.total_addresses := by
    intro t ht
    obtain ⟨s, os, hrun, hinv, hord⟩ := main_loop_from_init backing t extra
    obtain ⟨hmir, hcount⟩ := main_loop_tlb_mirrors t init s os [] (init_inv backing)
      init_frames_in_order init_tlb_mirrors
      (by
        show (distinct_pages t).length ≤ 16
        rw [distinct_pages_length]; exact ht) hrun
    refine ⟨s, os, hrun, hinv, hord, hmir, ?_⟩
    have e : init.tlb_hits + init.page_faults - init.total_addresses = 0 := rfl
    rw [e] at hcount
    omega
  obtain ⟨s, os, hrun, hinv, hord, hmir, hcount⟩ := hmirror trace hd
  have htot := main_loop_total_addresses trace init s os (init_inv backing) hrun
  have htot1 : s.total_addresses = (trace.length : Int) := by
    rw [htot]
    show (0 : Int) + _ = _
    omega
  have hfaults : s.page_faults = ((trace.map logical_page).toFinset.card : Int) := by
    rw [hinv.faults_eq, ← hord.len, distinct_pages_length]
  refine ⟨s, os, hrun, htot1, hfaults, by omega, hcount, hmir.slot, ?_⟩
  intro pre a post hsplit
  have hcard : ((pre ++ [a]).map logical_page).toFinset.card ≤ 16 := by
    have := card_pages_prefix pre post a
    rw [← hsplit] at this
    omega
  have hpre : (pre.map logical_page).toFinset.card ≤ 16 := by
    refine Nat.le_trans (Finset.card_le_card ?_) hcard
    intro p hp
    rw [List.mem_toFinset, List.mem_map] at hp ⊢
    obtain ⟨x, hx, hxp⟩ := hp
    exact ⟨x, List.mem_append_left _ hx, hxp⟩
  obtain ⟨s0, os0, hrun0, hinv0, hord0, hmir0, _⟩ := hmirror pre hpre
  obtain ⟨s1, o, hstep⟩ := main_step_total backing s0 a (17 + extra) hinv0.idx (by omega)
  obtain ⟨hkeep, hhit, hfault⟩ := main_step_tlb_mirrors hinv0 hord0 hmir0 hstep
  have hnext : (first_refs (distinct_pages pre) [a]).length ≤ 16 := by
    have e : first_refs (distinct_pages pre) [a] = distinct_pages (pre ++ [a]) := by
      unfold distinct_pages
      rw [first_refs_append]
    rw [e, distinct_pages_length]
    exact hcard
  have hroom : logical_page a ∉ distinct_pages pre → (distinct_pages pre).length < 16 := by
    intro hnin
    simp only [first_refs, if_neg hnin, List.length_append, List.length_singleton] at hnext
    omega
  refine ⟨s0, os0, s1, o, hrun0, hstep, ?_, ?_, ?_⟩
  · intro i hi hne
    rw [toUInt32_neg_one] at hne
    apply hkeep i hi hne
    by_cases hin : logical_page a ∈ distinct_pages pre
    · exact Or.inr hin
    · exact Or.inl (hroom hin)
  · intro hin
    exact (hhit ((mem_distinct_pages pre _).2 hin)).2
  · intro hnin
    have hnin1 : logical_page a ∉ distinct_pages pre :=
      fun hc => hnin ((mem_distinct_pages pre _).1 hc)
    obtain ⟨_, h1, h2, h3⟩ := hfault hnin1 (hroom hnin1)
    exact ⟨h1, h3, h2⟩

theorem no_eviction_witness :
    ∃ s os, main_loop sample_backing 17 init [0, 1024, 5] = some (s, os) ∧
      s.page_faults = (([0, 1024, 5].map logical_page).toFinset.card : Int) ∧
      s.tlb_hits + s.page_faults = s.total_addresses := by
  obtain ⟨s, os, h1, _, h2, _, h3, _⟩ :=
    no_eviction sample_backing [0, 1024, 5] 0 (by decide)
  exact ⟨s, os, h1, h2, h3⟩

/-! ## Reading lines that fit the buffer -/

theorem fgets_chars_line :
    ∀ (l : List Nat) (n : Nat) (rest : List Nat), (∀ c, c ∈ l → c ≠ 10) → l.length < n →
      fgets_chars n (l ++ 10 :: rest) = (l ++ [10], rest) := by
  intro l
  induction l with
  | nil =>
    intro n rest _ hn
    obtain ⟨m, rfl⟩ : ∃ m, n = m + 1 := ⟨n - 1, by simp at hn; omega⟩
    simp [fgets_chars]
  | cons c t ih =>
    intro n rest hc hn
    obtain ⟨m, rfl⟩ : ∃ m, n = m + 1 := ⟨n - 1, by simp at hn; omega⟩
    have hc10 : c ≠ 10 := hc c (List.mem_cons_self _ _)
    have hrec := ih m rest (fun d hd => hc d (List.mem_cons_of_mem _ hd))
      (by simp at hn; omega)
    show fgets_chars (m + 1) (c :: (t ++ 10 :: rest)) = (c :: (t ++ [10]), rest)
    simp only [fgets_chars, if_neg hc10, hrec]

theorem atoi_digits_line :
    ∀ (l : List Nat) (acc : Int), (∀ c, c ∈ l → isdigit c = true) →
      atoi_digits acc (l ++ [10]) = l.foldl (fun acc c => acc * 10 + ((c : Int) - 48)) acc := by
  intro l
  induction l with
  | nil =>
    intro acc _
    simp [atoi_digits, isdigit]
  | cons c t ih =>
    intro acc hc
    have hd : isdigit c = true := hc c (List.mem_cons_self _ _)
    simp only [List.cons_append, atoi_digits, hd, if_true, List.foldl_cons]
    exact ih _ (fun d hd => hc d (List.mem_cons_of_mem _ hd))

/-- On a line of digits followed by a new-line character `atoi` gives the value of
the line. -/
theorem atoi_line (l : List Nat) (hne : l ≠ []) (hc : ∀ c, c ∈ l → isdigit c = true) :
    atoi (l ++ [10]) = line_value l := by
  obtain ⟨c, t, rfl⟩ := List.exists_cons_of_ne_nil hne
  have hd : isdigit c = true := hc c (List.mem_cons_self _ _)
  have hrange : 48 ≤ c ∧ c ≤ 57 := by
    simpa [isdigit] using hd
  have hsp : isspace c = false := by
    simp only [isspace, Bool.or_eq_false_iff, beq_eq_false_iff_ne, Bool.and_eq_false_iff,
      decide_eq_false_iff_not]
    omega
  have hdrop : List.dropWhile isspace (c :: t ++ [10]) = c :: t ++ [10] := by
    simp [List.dropWhile, hsp]
  unfold atoi line_value
  rw [hdrop]
  split
  · rename_i rest heq
    simp only [List.cons_append, List.cons.injEq] at heq
    omega
  · rename_i rest heq
    simp only [List.cons_append, List.cons.injEq] at heq
    omega
  · exact atoi_digits_line (c :: t) 0 hc

/-- Lines that fit the buffer.  When every line of the trace file is a decimal integer
of one to eight digits followed by a new-line character, the read loop performs exactly
one translation per line, in order, of the value of the line: it is the loop over the
list of these values. -/
theorem main_read_loop_short_lines (backing : Int → Int) (fuel : Nat) :
    ∀ (lines : List (List Nat)) (s : State) (k : Nat),
      (∀ l, l ∈ lines → l ≠ [] ∧ l.length ≤ 8 ∧ ∀ c, c ∈ l → isdigit c = true) →
      main_read_loop backing fuel (lines.length + 1 + k) s (file_of_lines lines) =
        main_loop backing fuel s (lines.map line_value) := by
  intro lines
  induction lines with
  | nil =>
    intro s k _
    rw [List.length_nil, Nat.zero_add, Nat.add_comm 1 k]
    simp [main_read_loop, file_of_lines, fgets, main_loop]
  | cons l rest ih =>
    intro s k hl
    obtain ⟨hne, hlen, hdig⟩ := hl l (List.mem_cons_self _ _)
    have hno10 : ∀ c, c ∈ l → c ≠ 10 := by
      intro c hc
      have := hdig c hc
      simp only [isdigit, Bool.and_eq_true, decide_eq_true_eq] at this
      omega
    obtain ⟨c, t, hct⟩ := List.exists_cons_of_ne_nil hne
    have hfgets : fgets BUFFER_SIZE (file_of_lines (l :: rest)) =
        some (l ++ [10], file_of_lines rest) := by
      have hline := fgets_chars_line l 9 (file_of_lines rest) hno10 (by omega)
      simp only [file_of_lines]
      rw [hct] at hline ⊢
      simp only [List.cons_append, fgets, BUFFER_SIZE] at hline ⊢
      rw [hline]
    have hfuel : (l :: rest).length + 1 + k = (rest.length + 1 + k) + 1 := by
      simp only [List.length_cons]; omega
    rw [hfuel]
    simp only [main_read_loop, hfgets, atoi_line l hne hdig, List.map_cons, main_loop,
      ih _ k (fun l1 h1 => hl l1 (List.mem_cons_of_mem _ h1))]

/-! ## C16: reading the trace -/

/-- C16 (the code departs from the claim).  On the trace file whose single line is the
nine-digit integer `123456789` followed by a new-line character, the first `fgets` call
fills its 10-byte buffer with the nine digits and leaves the new-line character in the
file; the second call returns that character alone, for which `atoi` gives 0.  The read
loop therefore performs two translations for the one line, of the addresses 123456789
and 0.  With eight digits the line and its terminator fit the buffer and there is one
translation, of the value of the line. -/
theorem nine_digit_line_read_twice :
    fgets BUFFER_SIZE nine_digit_file = some ([49, 50, 51, 52, 53, 54, 55, 56, 57], [10]) ∧
    fgets BUFFER_SIZE [10] = some ([10], []) ∧
    atoi [10] = 0 ∧
    (main_read_loop sample_backing 17 3 init nine_digit_file).map
        (fun r => (r.1.total_addresses, r.2.map Output.logical_address)) =
      some (2, [123456789, 0]) ∧
    (main_read_loop sample_backing 17 3 init eight_digit_file).map
        (fun r => (r.1.total_addresses, r.2.map Output.logical_address)) =
      some (1, [12345678]) := by
  refine ⟨by decide, by decide, by decide, by decide, by decide⟩

/-! ## The theorems on whole traces at a sample trace -/

theorem no_frame_exhaustion_witness :
    ∃ s os s1 o, main_loop sample_backing 17 init [0, 1024, 5] = some (s, os) ∧
      main_step sample_backing 17 s 2048 = some (s1, o) ∧
      s.free_page ≤ ([0, 1024, 5].map logical_page).toFinset.card ∧
      0 ≤ s1.pagetable (logical_page 2048) ∧ s1.pagetable (logical_page 2048) < 1024 := by
  obtain ⟨s, os, s1, o, h1, h2, h3, _, _, h4, h5, _⟩ :=
    no_frame_exhaustion sample_backing [0, 1024, 5] 2048 0
  exact ⟨s, os, s1, o, h1, h2, h3, h4, h5⟩

theorem frames_in_order_witness :
    ∃ s os, main_loop sample_backing 17 init [0, 1024, 5] = some (s, os) ∧
      s.pagetable 0 = 0 ∧ s.pagetable 1 = 1 ∧ s.free_page = 2 := by
  obtain ⟨s, os, h1, h2, h3, _⟩ := frames_in_order sample_backing [0, 1024, 5] 0
  exact ⟨s, os, h1, h2 0 0 (by decide), h2 1 1 (by decide), by rw [h3]; decide⟩

theorem page_faults_count_witness :
    ∃ s os s1 o, main_loop sample_backing 17 init [0, 1024, 5] = some (s, os) ∧
      main_step sample_backing 17 s 2048 = some (s1, o) ∧
      s.page_faults = 2 ∧ s1.page_faults = s.page_faults + 1 := by
  obtain ⟨s, os, s1, o, h1, h2, h3, _, h5, _⟩ :=
    page_faults_count sample_backing [0, 1024, 5] 2048 0
  exact ⟨s, os, s1, o, h1, h2, by rw [h3]; decide, (h5 (by decide)).2⟩

end VirtMem
